import Mathlib

/-!
Verification of the wikitext transformation engine of the `rustipedia`
repository (`src/parser.rs`).  The Rust code is shallowly embedded: every
definition below mirrors one function, regex or pipeline stage of the
source.  Texts are lists of characters; regex `replace_all` calls become
executable scanning functions with the exact leftmost-first semantics of
the `regex` crate (in particular, `.` does not match a newline, character
classes do).  Rust's `char::to_lowercase` and the regex class `\s` are
modelled on ASCII, which is the range all the statements below exercise.
-/

namespace Wiki

/-- Left brace character (written numerically). -/
def lb : Char := Char.ofNat 123

/-- Right brace character (written numerically). -/
def rb : Char := Char.ofNat 125

/-- Apostrophe character (written numerically). -/
def apos : Char := Char.ofNat 39

/-- Whitespace as used by the embedding for Rust's `trim`/regex `\s`
(ASCII model). -/
def wsp (c : Char) : Bool :=
  c = ' ' || c = '\t' || c = '\n' || c = '\r'

/-- `takeWhile` (own definition, for self-contained proofs). -/
def tw (p : Char → Bool) : List Char → List Char
  | [] => []
  | c :: cs => if p c then c :: tw p cs else []

/-- `dropWhile` (own definition, for self-contained proofs). -/
def dw (p : Char → Bool) : List Char → List Char
  | [] => []
  | c :: cs => if p c then dw p cs else c :: cs

/-- Strip a literal pattern from the front of the input; `some rest` on
success.  Models a regex literal such as `<ref`. -/
def stripPre : List Char → List Char → Option (List Char)
  | [], cs => some cs
  | _ :: _, [] => none
  | p :: ps, c :: cs => if c = p then stripPre ps cs else none

/-- Expected closing delimiter, the `stack` entries of
`clean_wiki_markup_with_filter`: `"}}"` for templates, `"|}"` for tables. -/
inductive Closer where
  | tc : Closer
  | bc : Closer
deriving DecidableEq

/-- One character with no lookahead available (end of input): openers and
closers need two characters, so the character is emitted only when the
stack is empty. -/
def scanOne (c : Char) (st : List Closer) : List Char :=
  match st with
  | [] => [c]
  | _ :: _ => []

/-- The brace/table stripping loop of `clean_wiki_markup_with_filter`
(src/parser.rs lines 121-164): a single scan with a stack of expected
closers; `{{`/`{|` push, the matching closer pops, characters are emitted
only when the stack is empty. -/
def scan : List Char → List Closer → List Char
  | [], _ => []
  | [c], st => scanOne c st
  | c :: c2 :: cs, st =>
    if c = lb && c2 = lb then scan cs (Closer.tc :: st)
    else if c = lb && c2 = '|' then scan cs (Closer.bc :: st)
    else
      match st with
      | [] => c :: scan (c2 :: cs) []
      | k :: st' =>
        if k = Closer.tc && c = rb && c2 = rb then scan cs st'
        else if k = Closer.bc && c = '|' && c2 = rb then scan cs st'
        else scan (c2 :: cs) (k :: st')

mutual
/-- Structured description of an input in which every `{{` and `{|`
opener has a matching balanced closer: raw characters, template spans and
table spans (arbitrarily nested, both kinds). -/
inductive Tok where
  | raw : Char → Tok
  | tmpl : Toks → Tok
  | tbl : Toks → Tok
inductive Toks where
  | nil : Toks
  | cons : Tok → Toks → Toks
end

mutual
/-- Characters of one token. -/
def flatT : Tok → List Char
  | .raw c => [c]
  | .tmpl b => lb :: lb :: flatTs b ++ [rb, rb]
  | .tbl b => lb :: '|' :: flatTs b ++ ['|', rb]
def flatTs : Toks → List Char
  | .nil => []
  | .cons t ts => flatT t ++ flatTs ts
end

/-- The characters lying outside every template/table span. -/
def keepTs : Toks → List Char
  | .nil => []
  | .cons (.raw c) ts => c :: keepTs ts
  | .cons (.tmpl _) ts => keepTs ts
  | .cons (.tbl _) ts => keepTs ts

/-- First character of the flattening of `ts`, else the follower `f`. -/
def headF : Toks → Option Char → Option Char
  | .nil, f => f
  | .cons (.raw c) _, _ => some c
  | .cons (.tmpl _) _, _ => some lb
  | .cons (.tbl _) _, _ => some lb

/-- A raw character is innocuous in context `ctx` (the innermost open
structure, if any) when, together with the next character, it forms
neither an opener nor the closer the scanner is currently expecting. -/
def rawOk (ctx : Option Closer) (c : Char) (nxt : Option Char) : Bool :=
  (if c = lb then nxt ≠ some lb && nxt ≠ some '|' else true) &&
  (match ctx with
   | some Closer.tc => if c = rb then nxt ≠ some rb else true
   | some Closer.bc => if c = '|' then nxt ≠ some rb else true
   | none => true)

mutual
/-- Well-formedness of a token sequence in context `ctx` with follower
`f` (the character right after the flattening, if any): the delimiters of
the structure are exactly the delimiters the scanner recognizes. -/
def okTok : Option Closer → Tok → Option Char → Bool
  | ctx, .raw c, nxt => rawOk ctx c nxt
  | _, .tmpl b, _ => okToks (some Closer.tc) b (some rb)
  | _, .tbl b, _ => okToks (some Closer.bc) b (some '|')
def okToks : Option Closer → Toks → Option Char → Bool
  | _, .nil, _ => true
  | ctx, .cons t ts, f => okTok ctx t (headF ts f) && okToks ctx ts f
end

/-- The stack never becomes empty while scanning `cs` from a nonempty
stack: the innermost opener is never matched by a closer, so the scanner
consumes the whole remainder silently. -/
def unterminated : List Char → List Closer → Bool
  | _, [] => false
  | [], _ :: _ => true
  | [_], _ :: _ => true
  | c :: c2 :: cs, k :: st =>
    if c = lb && c2 = lb then unterminated cs (Closer.tc :: k :: st)
    else if c = lb && c2 = '|' then unterminated cs (Closer.bc :: k :: st)
    else if k = Closer.tc && c = rb && c2 = rb then unterminated cs st
    else if k = Closer.bc && c = '|' && c2 = rb then unterminated cs st
    else unterminated (c2 :: cs) (k :: st)

/-- Inner loop of the File/Image/Category removal pass (src/parser.rs
lines 185-205): after an opening `[[`, capture the content up to the
matching `]]`, counting nested `[[`/`]]` pairs; returns
`(content, rest, is_closed)`. -/
def readLinkBody : List Char → Nat → List Char × List Char × Bool
  | [], _ => ([], [], false)
  | [c], _ => ([c], [], false)
  | c :: c2 :: cs, d =>
    if c = '[' && c2 = '[' then
      let r := readLinkBody cs (d + 1)
      ('[' :: '[' :: r.1, r.2.1, r.2.2)
    else if c = ']' && c2 = ']' then
      if d = 1 then ([], cs, true)
      else
        let r := readLinkBody cs (d - 1)
        (']' :: ']' :: r.1, r.2.1, r.2.2)
    else
      let r := readLinkBody (c2 :: cs) d
      (c :: r.1, r.2.1, r.2.2)

/-- Lowercasing of a character, modelling Rust `char::to_lowercase`
(ASCII range). -/
def lowC (c : Char) : Char := c.toLower

/-- Lowercasing of a string. -/
def lowerL (cs : List Char) : List Char := cs.map lowC

/-- `content.trim_start().to_lowercase()` starts with `file:`, `image:`
or `category:` (src/parser.rs lines 209-212). -/
def isFIC (content : List Char) : Bool :=
  let l := lowerL (dw wsp content)
  (stripPre (("file:").toList) l).isSome ||
  (stripPre (("image:").toList) l).isSome ||
  (stripPre (("category:").toList) l).isSome

/-- Outer loop of the File/Image/Category removal pass (src/parser.rs
lines 175-229), with explicit fuel (one unit per emitted-or-consumed
position; `fuel = length` suffices). -/
def removeFileLinksF : Nat → List Char → List Char
  | 0, _ => []
  | _ + 1, [] => []
  | n + 1, c :: cs =>
    if c = '[' then
      match cs with
      | c2 :: cs2 =>
        if c2 = '[' then
          let r := readLinkBody cs2 1
          if r.2.2 then
            if isFIC r.1 then removeFileLinksF n r.2.1
            else '[' :: '[' :: (r.1 ++ ']' :: ']' :: removeFileLinksF n r.2.1)
          else '[' :: '[' :: r.1
        else c :: removeFileLinksF n cs
      | [] => c :: removeFileLinksF n cs
    else c :: removeFileLinksF n cs

/-- The File/Image/Category removal stage. -/
def removeFileLinks (cs : List Char) : List Char :=
  removeFileLinksF cs.length cs

/-- Seek the first occurrence of the literal `pat`, consuming only
non-newline characters on the way: the semantics of a lazy `.*?` followed
by `pat` in the `regex` crate (`.` does not match `\n`).  Returns the
input remaining after `pat`. -/
def seekLit (pat : List Char) : List Char → Option (List Char)
  | [] => none
  | c :: cs =>
    match stripPre pat (c :: cs) with
    | some rest => some rest
    | none => if c = '\n' then none else seekLit pat cs

/-- Matcher for `REF_RE = <ref[^>]*>.*?</ref>` at the start of the input:
returns the replacement (empty) and the rest after the match. -/
def mRef (cs : List Char) : Option (List Char × List Char) :=
  match stripPre (("<ref").toList) cs with
  | none => none
  | some r1 =>
    match dw (fun c => c ≠ '>') r1 with
    | [] => none
    | _ :: r2 =>
      match seekLit (("</ref>").toList) r2 with
      | none => none
      | some rest => some ([], rest)

/-- Matcher for `REF_SELF_RE = <ref[^/]*/\s*>` at the start of the
input. -/
def mRefSelf (cs : List Char) : Option (List Char × List Char) :=
  match stripPre (("<ref").toList) cs with
  | none => none
  | some r1 =>
    match dw (fun c => c ≠ '/') r1 with
    | [] => none
    | _ :: r2 =>
      match dw wsp r2 with
      | [] => none
      | c :: r3 => if c = '>' then some ([], r3) else none

/-- Matcher for `COMMENT_RE = <!--.*?-->` at the start of the input. -/
def mComment (cs : List Char) : Option (List Char × List Char) :=
  match stripPre (("<!--").toList) cs with
  | none => none
  | some r1 =>
    match seekLit (("-->").toList) r1 with
    | none => none
    | some rest => some ([], rest)

/-- Matcher for `EXT_LINK_RE = \[https?://[^\s\]]*\s*([^\]]*)\]`,
replacement `$1`. -/
def mExt (cs : List Char) : Option (List Char × List Char) :=
  match stripPre (("[http").toList) cs with
  | none => none
  | some r0 =>
    match (match stripPre (("s://").toList) r0 with
           | some r => some r
           | none => stripPre (("://").toList) r0) with
    | none => none
    | some r1 =>
      let r2 := dw (fun c => !(wsp c) && c ≠ ']') r1
      let r3 := dw wsp r2
      let cap := tw (fun c => c ≠ ']') r3
      match dw (fun c => c ≠ ']') r3 with
      | [] => none
      | _ :: rest => some (cap, rest)

/-- Matcher for `HEADER_RE = ={2,}[^=]+={2,}`, replacement a single
newline.  `[^=]` matches every character but `=`, newlines included. -/
def mHeader (cs : List Char) : Option (List Char × List Char) :=
  let e1 := tw (fun c => c = '=') cs
  if e1.length < 2 then none
  else
    let r1 := dw (fun c => c = '=') cs
    let mid := tw (fun c => c ≠ '=') r1
    if mid = [] then none
    else
      let r2 := dw (fun c => c ≠ '=') r1
      let e2 := tw (fun c => c = '=') r2
      if e2.length < 2 then none
      else some (['\n'], dw (fun c => c = '=') r2)

/-- Matcher for `HTML_RE = <[^>]+>`. -/
def mHtml (cs : List Char) : Option (List Char × List Char) :=
  match cs with
  | [] => none
  | c :: r0 =>
    if c = '<' then
      let inner := tw (fun d => d ≠ '>') r0
      if inner = [] then none
      else
        match dw (fun d => d ≠ '>') r0 with
        | [] => none
        | _ :: rest => some ([], rest)
    else none

/-- Matcher for `MULTI_SPACE_RE = [ \t]+`, replacement one space. -/
def mSpace (cs : List Char) : Option (List Char × List Char) :=
  let run := tw (fun c => c = ' ' || c = '\t') cs
  if run = [] then none
  else some ([' '], dw (fun c => c = ' ' || c = '\t') cs)

/-- Matcher for `MULTI_NEWLINE_RE = \n{3,}`, replacement two newlines. -/
def mNl3 (cs : List Char) : Option (List Char × List Char) :=
  let run := tw (fun c => c = '\n') cs
  if run.length < 3 then none
  else some (['\n', '\n'], dw (fun c => c = '\n') cs)

/-- `str::replace` with a one-character pattern: every occurrence of `p`
becomes `r`. -/
def replC (p : Char) (r : List Char) (s : List Char) : List Char :=
  s.flatMap (fun c => if c = p then r else [c])

/-- `html_escape` (src/parser.rs lines 104-110): five chained
single-character replacements, `&` first. -/
def htmlEscape (s : List Char) : List Char :=
  replC apos (("&#x27;").toList)
    (replC '"' (("&quot;").toList)
      (replC '>' (("&gt;").toList)
        (replC '<' (("&lt;").toList)
          (replC '&' (("&amp;").toList) s))))

/-- Uppercase hexadecimal digit. -/
def hexD (n : Nat) : Char :=
  if n < 10 then Char.ofNat (48 + n) else Char.ofNat (55 + n)

/-- UTF-8 bytes of a character. -/
def utf8B (c : Char) : List Nat :=
  let n := c.toNat
  if n < 128 then [n]
  else if n < 2048 then [192 + n / 64, 128 + n % 64]
  else if n < 65536 then [224 + n / 4096, 128 + (n / 64) % 64, 128 + n % 64]
  else [240 + n / 262144, 128 + (n / 4096) % 64, 128 + (n / 64) % 64, 128 + n % 64]

/-- `urlencoding::encode`: every byte is percent-encoded except ASCII
alphanumerics and `-`, `_`, `.`, `~`. -/
def urlencode (s : List Char) : List Char :=
  s.flatMap (fun c =>
    if c.isAlphanum || c = '-' || c = '_' || c = '.' || c = '~' then [c]
    else (utf8B c).flatMap (fun b => ['%', hexD (b / 16), hexD (b % 16)]))

/-- `target.to_lowercase().replace('_', " ")` (src/parser.rs line 253). -/
def normTitle (t : List Char) : List Char := replC '_' [' '] (lowerL t)

/-- The anchor emitted for a link:
`<a href="/wiki/{url-encoded target}">{escaped text}</a>`. -/
def anchorL (target text : List Char) : List Char :=
  ("<a href=\"/wiki/").toList ++ urlencode target ++ ("\">").toList ++
    htmlEscape text ++ ("</a>").toList

/-- The closure of the `LINK_PIPE_RE` rewrite (src/parser.rs lines
248-262): with a title set, keep the anchor only when the normalized
target is a member; otherwise emit the escaped display text alone. -/
def pipeOut (valid : Option (List (List Char))) (target text : List Char) :
    List Char :=
  match valid with
  | some s => if s.contains (normTitle target) then anchorL target text
              else htmlEscape text
  | none => anchorL target text

/-- The closure of the `LINK_RE` rewrite (src/parser.rs lines 265-278):
the target doubles as the display text. -/
def linkOut (valid : Option (List (List Char))) (target : List Char) :
    List Char :=
  match valid with
  | some s => if s.contains (normTitle target) then anchorL target target
              else htmlEscape target
  | none => anchorL target target

/-- Raw matcher for `LINK_PIPE_RE = \[\[([^\]|]*)\|([^\]]*)\]\]`:
returns target, display and rest. -/
def mPipeRaw (cs : List Char) : Option (List Char × List Char × List Char) :=
  match stripPre (("[[").toList) cs with
  | none => none
  | some r0 =>
    let tgt := tw (fun c => c ≠ ']' && c ≠ '|') r0
    match dw (fun c => c ≠ ']' && c ≠ '|') r0 with
    | [] => none
    | c :: r1 =>
      if c = '|' then
        let txt := tw (fun d => d ≠ ']') r1
        match dw (fun d => d ≠ ']') r1 with
        | b1 :: b2 :: rest =>
          if b1 = ']' && b2 = ']' then some (tgt, txt, rest) else none
        | _ => none
      else none

/-- Matcher for the `LINK_PIPE_RE` rewrite. -/
def mPipe (valid : Option (List (List Char))) (cs : List Char) :
    Option (List Char × List Char) :=
  match mPipeRaw cs with
  | none => none
  | some r => some (pipeOut valid r.1 r.2.1, r.2.2)

/-- Raw matcher for `LINK_RE = \[\[([^\]]*)\]\]`: returns the capture
and the rest. -/
def mLinkRaw (cs : List Char) : Option (List Char × List Char) :=
  match stripPre (("[[").toList) cs with
  | none => none
  | some r0 =>
    let cap := tw (fun c => c ≠ ']') r0
    match dw (fun c => c ≠ ']') r0 with
    | b1 :: b2 :: rest =>
      if b1 = ']' && b2 = ']' then some (cap, rest) else none
    | _ => none

/-- Matcher for the `LINK_RE` rewrite. -/
def mLink (valid : Option (List (List Char))) (cs : List Char) :
    Option (List Char × List Char) :=
  match mLinkRaw cs with
  | none => none
  | some r => some (linkOut valid r.1, r.2)

/-- Generic `Regex::replace_all` driver: at each position try the matcher;
on success emit the replacement and continue after the match, otherwise
emit one character and move on.  Fuel (`length` suffices) keeps the
recursion structural. -/
def scanRepl (m : List Char → Option (List Char × List Char)) :
    Nat → List Char → List Char
  | _, [] => []
  | 0, _ :: _ => []
  | n + 1, c :: cs =>
    match m (c :: cs) with
    | some r => r.1 ++ scanRepl m n r.2
    | none => c :: scanRepl m n cs

/-- `REF_RE` stage. -/
def refStep (cs : List Char) : List Char := scanRepl mRef cs.length cs

/-- `REF_SELF_RE` stage. -/
def refSelfStep (cs : List Char) : List Char := scanRepl mRefSelf cs.length cs

/-- `COMMENT_RE` stage. -/
def commentStep (cs : List Char) : List Char := scanRepl mComment cs.length cs

/-- `EXT_LINK_RE` stage. -/
def extStep (cs : List Char) : List Char := scanRepl mExt cs.length cs

/-- `HEADER_RE` stage. -/
def headerStep (cs : List Char) : List Char := scanRepl mHeader cs.length cs

/-- `HTML_RE` stage. -/
def htmlStep (cs : List Char) : List Char := scanRepl mHtml cs.length cs

/-- `LINK_PIPE_RE` rewrite stage. -/
def pipeStep (valid : Option (List (List Char))) (cs : List Char) :
    List Char := scanRepl (mPipe valid) cs.length cs

/-- `LINK_RE` rewrite stage. -/
def linkStep (valid : Option (List (List Char))) (cs : List Char) :
    List Char := scanRepl (mLink valid) cs.length cs

/-- `MULTI_SPACE_RE` stage. -/
def spaceStep (cs : List Char) : List Char := scanRepl mSpace cs.length cs

/-- `MULTI_NEWLINE_RE` stage. -/
def nlStep (cs : List Char) : List Char := scanRepl mNl3 cs.length cs

/-- Bullet characters of `BULLET_RE = (?m)^\s*[\*#:]+\s*`. -/
def isBul (c : Char) : Bool := c = '*' || c = '#' || c = ':'

/-- Matcher for `BULLET_RE` at a line start: leading whitespace (newlines
included), at least one bullet character, trailing whitespace.  Also
reports whether the match ends with a newline (the next position is then
again a line start). -/
def mBullet (cs : List Char) : Option (List Char × Bool) :=
  let r1 := dw wsp cs
  let bs := tw isBul r1
  if bs = [] then none
  else
    let r2 := dw isBul r1
    let ws2 := tw wsp r2
    some (dw wsp r2, ws2.getLast? == some '\n')

/-- `BULLET_RE` driver: the `(?m)^` anchor restricts matches to position
zero and positions right after a newline. -/
def bulletF : Nat → Bool → List Char → List Char
  | _, _, [] => []
  | 0, _, _ :: _ => []
  | n + 1, atStart, c :: cs =>
    if atStart then
      match mBullet (c :: cs) with
      | some r => bulletF n r.2 r.1
      | none => c :: bulletF n (c = '\n') cs
    else c :: bulletF n (c = '\n') cs

/-- `BULLET_RE` stage. -/
def bulletStep (cs : List Char) : List Char := bulletF cs.length true cs

/-- `result.replace("'''", "")` (left-to-right, non-overlapping). -/
def remTriple : List Char → List Char
  | a :: b :: c :: cs =>
    if a = apos && b = apos && c = apos then remTriple cs
    else a :: remTriple (b :: c :: cs)
  | a :: cs => a :: remTriple cs
  | [] => []

/-- `.replace("''", "")` (left-to-right, non-overlapping). -/
def remDouble : List Char → List Char
  | a :: b :: cs =>
    if a = apos && b = apos then remDouble cs
    else a :: remDouble (b :: cs)
  | a :: cs => a :: remDouble cs
  | [] => []

/-- `str::trim` on both ends. -/
def trimBoth (cs : List Char) : List Char :=
  (dw wsp (dw wsp cs).reverse).reverse

/-- `clean_wiki_markup_with_filter` (src/parser.rs lines 118-285): the
full pipeline, stage by stage in source order. -/
def cleanWithFilter (valid : Option (List (List Char))) (text : List Char) :
    List Char :=
  let r1 := scan text []
  let r2 := refSelfStep (refStep r1)
  let r3 := commentStep r2
  let r4 := removeFileLinks r3
  let r5 := extStep r4
  let r6 := remDouble (remTriple r5)
  let r7 := headerStep r6
  let r8 := bulletStep r7
  let r9 := htmlStep r8
  let r10 := pipeStep valid r9
  let r11 := linkStep valid r10
  let r12 := nlStep (spaceStep r11)
  trimBoth r12

/-- `clean_wiki_markup` (src/parser.rs lines 113-115). -/
def cleanWikiMarkup (text : List Char) : List Char :=
  cleanWithFilter none text

/-- Matcher for the category regex `\[\[Category:([^\]|]+)` of
`extract_categories` (note the capital `C`; no closing `]]` required);
the capture is trimmed. -/
def mCat (cs : List Char) : Option (List Char × List Char) :=
  match stripPre (("[[Category:").toList) cs with
  | none => none
  | some r0 =>
    let cap := tw (fun c => c ≠ ']' && c ≠ '|') r0
    if cap = [] then none
    else some (trimBoth cap, dw (fun c => c ≠ ']' && c ≠ '|') r0)

/-- `captures_iter` accumulation for `extract_categories`. -/
def extractCatsF : Nat → List Char → List (List Char)
  | _, [] => []
  | 0, _ :: _ => []
  | n + 1, c :: cs =>
    match mCat (c :: cs) with
    | some r => r.1 :: extractCatsF n r.2
    | none => extractCatsF n cs

/-- `extract_categories` (src/parser.rs lines 94-99). -/
def extractCategories (cs : List Char) : List (List Char) :=
  extractCatsF cs.length cs

/-- `is_redirect` (src/parser.rs lines 59-62): trimmed, lowercased text
starts with `#redirect` or `# redirect`. -/
def isRedirect (cs : List Char) : Bool :=
  let l := lowerL (trimBoth cs)
  (stripPre (("#redirect").toList) l).isSome ||
  (stripPre (("# redirect").toList) l).isSome

/-- First capture of `LINK_RE` anywhere in the text (`Regex::captures`). -/
def firstLinkCap : List Char → Option (List Char)
  | [] => none
  | c :: cs =>
    match mLinkRaw (c :: cs) with
    | some r => some r.1
    | none => firstLinkCap cs

/-- `extract_redirect_target` (src/parser.rs lines 65-81): the first
`[[...]]` capture, cut before the first `|` when one is present. -/
def extractRedirectTarget (cs : List Char) : Option (List Char) :=
  if isRedirect cs then
    (firstLinkCap cs).map (fun full =>
      if '|' ∈ full then tw (fun c => c ≠ '|') full else full)
  else none

theorem tw_append_of_all (p : Char → Bool) (a l : List Char)
    (h : ∀ c ∈ a, p c = true) : tw p (a ++ l) = a ++ tw p l := by
  induction a with
  | nil => rfl
  | cons c a ih =>
    have hc := h c (by simp)
    simp [tw, hc, ih (fun d hd => h d (by simp [hd]))]

theorem dw_append_of_all (p : Char → Bool) (a l : List Char)
    (h : ∀ c ∈ a, p c = true) : dw p (a ++ l) = dw p l := by
  induction a with
  | nil => rfl
  | cons c a ih =>
    have hc := h c (by simp)
    simp [dw, hc, ih (fun d hd => h d (by simp [hd]))]

theorem tw_cons_neg (p : Char → Bool) (c : Char) (l : List Char)
    (hc : p c = false) : tw p (c :: l) = [] := by
  simp [tw, hc]

theorem dw_cons_neg (p : Char → Bool) (c : Char) (l : List Char)
    (hc : p c = false) : dw p (c :: l) = c :: l := by
  simp [dw, hc]

theorem stripPre_self (p l : List Char) : stripPre p (p ++ l) = some l := by
  induction p with
  | nil => rfl
  | cons c p ih => simp [stripPre, ih]

theorem stripPre_some_eq (p : List Char) :
    ∀ cs r, stripPre p cs = some r → cs = p ++ r := by
  induction p with
  | nil => intro cs r h; simp [stripPre] at h; simp [h]
  | cons c p ih =>
    intro cs r h
    match cs with
    | [] => simp [stripPre] at h
    | d :: cs =>
      by_cases hd : d = c
      · subst hd
        simp [stripPre] at h
        simpa using ih cs r h
      · simp [stripPre, hd] at h

theorem scanRepl_skip (m : List Char → Option (List Char × List Char))
    (pre : List Char) :
    ∀ (n : Nat) (rest : List Char),
      (∀ p1 p2, pre = p1 ++ p2 → p2 ≠ [] → m (p2 ++ rest) = none) →
      pre.length + rest.length ≤ n →
      scanRepl m n (pre ++ rest) = pre ++ scanRepl m (n - pre.length) rest := by
  induction pre with
  | nil => intro n rest _ _; simp
  | cons c pre ih =>
    intro n rest hf hn
    match n with
    | 0 => simp at hn
    | n + 1 =>
      have hm : m (c :: (pre ++ rest)) = none := by
        have := hf [] (c :: pre) rfl (by simp)
        simpa using this
      have ih2 := ih n rest
        (fun p1 p2 hp hne => hf (c :: p1) p2 (by simp [hp]) hne)
        (by simp at hn; omega)
      simp only [List.cons_append, scanRepl, List.append_eq]
      rw [hm, ih2]
      simp [Nat.succ_sub_succ]

theorem scanRepl_fuel (m : List Char → Option (List Char × List Char))
    (hm : ∀ c cs r, m (c :: cs) = some r → r.2.length ≤ cs.length) :
    ∀ (n1 : Nat) (cs : List Char) (n2 : Nat),
      cs.length ≤ n1 → cs.length ≤ n2 →
      scanRepl m n1 cs = scanRepl m n2 cs := by
  intro n1
  induction n1 with
  | zero =>
    intro cs n2 h1 _
    have hcs : cs = [] := by
      cases cs with
      | nil => rfl
      | cons c cs => simp at h1
    subst hcs
    cases n2 <;> simp [scanRepl]
  | succ n ih =>
    intro cs n2 h1 h2
    match cs with
    | [] => cases n2 <;> simp [scanRepl]
    | c :: cs =>
      match n2 with
      | 0 => simp at h2
      | n2 + 1 =>
        cases hr : m (c :: cs) with
        | some r =>
          have hlen := hm c cs r hr
          have heq := ih r.2 n2 (by simp at h1; omega) (by simp at h2; omega)
          simp [scanRepl, hr, heq]
        | none =>
          have heq := ih cs n2 (by simp at h1; omega) (by simp at h2; omega)
          simp [scanRepl, hr, heq]

theorem scanRepl_id (m : List Char → Option (List Char × List Char))
    (u : List Char) (n : Nat)
    (hf : ∀ p1 p2, u = p1 ++ p2 → p2 ≠ [] → m p2 = none)
    (hn : u.length ≤ n) : scanRepl m n u = u := by
  have := scanRepl_skip m u n []
    (fun p1 p2 hp hne => by simpa using hf p1 p2 hp hne) (by simpa using hn)
  simpa [scanRepl] using this

theorem scanRepl_id_start (m : List Char → Option (List Char × List Char))
    (p : Char → Bool) (u : List Char) (n : Nat)
    (hstart : ∀ c cs r, m (c :: cs) = some r → p c = true)
    (hall : ∀ c ∈ u, p c = false) (hn : u.length ≤ n) :
    scanRepl m n u = u := by
  refine scanRepl_id m u n ?_ hn
  intro p1 p2 hp hne
  match p2 with
  | [] => exact absurd rfl hne
  | c :: p2 =>
    match hr : m (c :: p2) with
    | none => rfl
    | some r =>
      have hc : p c = true := hstart c p2 r hr
      have hmem : c ∈ u := by rw [hp]; simp
      rw [hall c hmem] at hc
      exact absurd hc (by simp)

theorem flatT_ne_nil (t : Tok) : flatT t ≠ [] := by
  cases t <;> simp [flatT]

theorem headF_eq (ts : Toks) (l : List Char) :
    (flatTs ts ++ l).head? = headF ts l.head? := by
  cases ts with
  | nil => simp [flatTs, headF]
  | cons t ts =>
    cases t <;> simp [flatTs, flatT, headF]

theorem keepTs_of_flat_nil (ts : Toks) (h : flatTs ts = []) :
    keepTs ts = [] := by
  cases ts with
  | nil => rfl
  | cons t ts =>
    exfalso
    exact flatT_ne_nil t (by simpa using (List.append_eq_nil.mp (by simpa [flatTs] using h)).1)

theorem lb_ne_rb : lb ≠ rb := by decide

theorem lb_ne_pipe : lb ≠ '|' := by decide

theorem rb_ne_lb : rb ≠ lb := by decide

theorem pipe_ne_lb : ¬('|' = lb) := by decide

theorem rb_ne_pipe : ¬(rb = '|') := by decide

mutual
/-- Inside an open structure expecting closer `k`, a well-formed token is
consumed silently: the scanner state is unchanged after its characters. -/
theorem scanTokIn (t : Tok) :
    ∀ (k : Closer) (st : List Closer) (l : List Char),
      okTok (some k) t l.head? = true →
      scan (flatT t ++ l) (k :: st) = scan l (k :: st) := by
  cases t with
  | raw c =>
    intro k st l h
    have h' : rawOk (some k) c l.head? = true := by simpa [okTok] using h
    match l with
    | [] => simp [flatT, scan, scanOne]
    | c2 :: l' =>
      simp only [List.head?_cons] at h'
      by_cases hclb : c = lb
      · subst hclb
        have h2 : ¬(c2 = lb) ∧ ¬(c2 = '|') := by
          simp [rawOk] at h'
          exact h'.1
        cases k <;>
          simp [flatT, scan, h2.1, h2.2, lb_ne_rb, lb_ne_pipe]
      · cases k with
        | tc =>
          by_cases hcrb : c = rb
          · subst hcrb
            have h2 : ¬(c2 = rb) := by
              simp [rawOk, hclb] at h'
              simpa using h'
            simp [flatT, scan, hclb, h2]
          · simp [flatT, scan, hclb, hcrb]
        | bc =>
          by_cases hcp : c = '|'
          · subst hcp
            have h2 : ¬(c2 = rb) := by
              simp [rawOk, hclb] at h'
              simpa using h'
            simp [flatT, scan, hclb, h2]
          · simp [flatT, scan, hclb, hcp]
  | tmpl b =>
    intro k st l h
    have hb : okToks (some Closer.tc) b (some rb) = true := by
      simpa [okTok] using h
    have hstep : scan (flatT (Tok.tmpl b) ++ l) (k :: st) =
        scan (flatTs b ++ rb :: rb :: l) (Closer.tc :: k :: st) := by
      simp [flatT, scan]
    rw [hstep]
    have hin := scanToksIn b Closer.tc (k :: st) (rb :: rb :: l)
      (by simpa using hb)
    rw [hin]
    simp [scan, rb_ne_lb]
  | tbl b =>
    intro k st l h
    have hb : okToks (some Closer.bc) b (some '|') = true := by
      simpa [okTok] using h
    have hstep : scan (flatT (Tok.tbl b) ++ l) (k :: st) =
        scan (flatTs b ++ '|' :: rb :: l) (Closer.bc :: k :: st) := by
      simp [flatT, scan, pipe_ne_lb]
    rw [hstep]
    have hin := scanToksIn b Closer.bc (k :: st) ('|' :: rb :: l)
      (by simpa using hb)
    rw [hin]
    simp [scan, pipe_ne_lb]

/-- Inside an open structure expecting closer `k`, a well-formed token
sequence is consumed silently. -/
theorem scanToksIn (b : Toks) :
    ∀ (k : Closer) (st : List Closer) (l : List Char),
      okToks (some k) b l.head? = true →
      scan (flatTs b ++ l) (k :: st) = scan l (k :: st) := by
  cases b with
  | nil => intro k st l _; simp [flatTs]
  | cons t ts =>
    intro k st l h
    have h1 : okTok (some k) t (headF ts l.head?) = true := by
      simp [okToks] at h
      exact h.1
    have h2 : okToks (some k) ts l.head? = true := by
      simp [okToks] at h
      exact h.2
    have hre : flatTs (Toks.cons t ts) ++ l = flatT t ++ (flatTs ts ++ l) := by
      simp [flatTs]
    rw [hre, scanTokIn t k st (flatTs ts ++ l) (by rw [headF_eq]; exact h1)]
    exact scanToksIn ts k st l h2

/-- At the top level, a well-formed token sequence scans to its raw
characters: template and table spans vanish whole, raw characters are
copied. -/
theorem scanToksTop (b : Toks) :
    ∀ (l : List Char),
      okToks none b l.head? = true →
      scan (flatTs b ++ l) [] = keepTs b ++ scan l [] := by
  cases b with
  | nil => intro l _; simp [flatTs, keepTs]
  | cons t ts =>
    intro l h
    have h1 : okTok none t (headF ts l.head?) = true := by
      simp [okToks] at h
      exact h.1
    have h2 : okToks none ts l.head? = true := by
      simp [okToks] at h
      exact h.2
    cases t with
    | raw c =>
      have h' : rawOk none c (flatTs ts ++ l).head? = true := by
        rw [headF_eq]
        simpa [okTok] using h1
      have hre : flatTs (Toks.cons (Tok.raw c) ts) ++ l =
          c :: (flatTs ts ++ l) := by
        simp [flatTs, flatT]
      rw [hre]
      match hl : flatTs ts ++ l with
      | [] =>
        have hfl : flatTs ts = [] ∧ l = [] := List.append_eq_nil.mp hl
        simp [scan, scanOne, keepTs, hfl.2, keepTs_of_flat_nil ts hfl.1]
      | c2 :: l2 =>
        have hop : ¬(c = lb ∧ c2 = lb) ∧ ¬(c = lb ∧ c2 = '|') := by
          by_cases hc : c = lb
          · rw [hl] at h'
            simp [rawOk, hc] at h'
            simp [hc]
            exact ⟨h'.1, h'.2⟩
          · simp [hc]
        have : scan (c :: c2 :: l2) [] = c :: scan (c2 :: l2) [] := by
          simp only [scan]
          rw [if_neg (by simpa using hop.1), if_neg (by simpa using hop.2)]
        rw [this, ← hl, scanToksTop ts l h2]
        simp [keepTs]
    | tmpl b' =>
      have hb : okToks (some Closer.tc) b' (some rb) = true := by
        simpa [okTok] using h1
      have hre : flatTs (Toks.cons (Tok.tmpl b') ts) ++ l =
          lb :: lb :: (flatTs b' ++ rb :: rb :: (flatTs ts ++ l)) := by
        simp [flatTs, flatT]
      rw [hre]
      have hstep : scan (lb :: lb :: (flatTs b' ++ rb :: rb :: (flatTs ts ++ l))) [] =
          scan (flatTs b' ++ rb :: rb :: (flatTs ts ++ l)) [Closer.tc] := by
        simp [scan]
      rw [hstep, scanToksIn b' Closer.tc [] _ (by simpa using hb)]
      have hpop : scan (rb :: rb :: (flatTs ts ++ l)) [Closer.tc] =
          scan (flatTs ts ++ l) [] := by
        simp [scan, rb_ne_lb]
      rw [hpop, scanToksTop ts l h2]
      simp [keepTs]
    | tbl b' =>
      have hb : okToks (some Closer.bc) b' (some '|') = true := by
        simpa [okTok] using h1
      have hre : flatTs (Toks.cons (Tok.tbl b') ts) ++ l =
          lb :: '|' :: (flatTs b' ++ '|' :: rb :: (flatTs ts ++ l)) := by
        simp [flatTs, flatT]
      rw [hre]
      have hstep : scan (lb :: '|' :: (flatTs b' ++ '|' :: rb :: (flatTs ts ++ l))) [] =
          scan (flatTs b' ++ '|' :: rb :: (flatTs ts ++ l)) [Closer.bc] := by
        simp [scan, pipe_ne_lb]
      rw [hstep, scanToksIn b' Closer.bc [] _ (by simpa using hb)]
      have hpop : scan ('|' :: rb :: (flatTs ts ++ l)) [Closer.bc] =
          scan (flatTs ts ++ l) [] := by
        simp [scan, pipe_ne_lb]
      rw [hpop, scanToksTop ts l h2]
      simp [keepTs]
end

/-- C1: For every input text in which every `{{` and `{|` opener has a
matching balanced closer (represented by a well-formed token sequence),
the first stage of `clean_wiki_markup` removes each balanced `{{...}}`
and `{|...|}` span in its entirety, nested spans of either kind included,
and copies every character outside such spans to the output unchanged. -/
theorem strip_stage_removes_balanced_spans (ts : Toks)
    (h : okToks none ts none = true) :
    scan (flatTs ts) [] = keepTs ts := by
  have htop := scanToksTop ts [] (by simpa using h)
  simpa [scan] using htop

/-- Concrete token sequence for `X{{a{{b}}c}}Y`. -/
def exC1 : Toks :=
  Toks.cons (Tok.raw 'X')
    (Toks.cons (Tok.tmpl
      (Toks.cons (Tok.raw 'a')
        (Toks.cons (Tok.tmpl (Toks.cons (Tok.raw 'b') Toks.nil))
          (Toks.cons (Tok.raw 'c') Toks.nil))))
      (Toks.cons (Tok.raw 'Y') Toks.nil))

/-- Witness for C1: the sequence `X{{a{{b}}c}}Y` is well formed and the
stripping stage maps it to `XY`. -/
theorem strip_stage_removes_balanced_spans_witness :
    okToks none exC1 none = true ∧
    flatTs exC1 = ("X\x7b\x7ba\x7b\x7bb\x7d\x7dc\x7d\x7dY").toList ∧
    scan (("X\x7b\x7ba\x7b\x7bb\x7d\x7dc\x7d\x7dY").toList) [] = ("XY").toList := by
  refine ⟨by decide, by decide, ?_⟩
  have h := strip_stage_removes_balanced_spans exC1 (by decide)
  have h2 : flatTs exC1 = ("X\x7b\x7ba\x7b\x7bb\x7d\x7dc\x7d\x7dY").toList := by decide
  have h3 : keepTs exC1 = ("XY").toList := by decide
  rw [← h2, h, h3]

theorem unterm_scan :
    ∀ (n : Nat) (cs : List Char) (k : Closer) (st : List Closer),
      cs.length ≤ n → unterminated cs (k :: st) = true →
      scan cs (k :: st) = [] := by
  intro n
  induction n with
  | zero =>
    intro cs k st hlen _
    match cs with
    | [] => rfl
    | c :: cs => simp at hlen
  | succ n ih =>
    intro cs k st hlen hu
    match cs with
    | [] => rfl
    | [c] => simp [scan, scanOne]
    | c :: c2 :: cs =>
      simp only [unterminated] at hu
      simp only [scan]
      by_cases h1 : c = lb ∧ c2 = lb
      · rw [if_pos (by simpa using h1)] at hu ⊢
        exact ih cs Closer.tc (k :: st) (by simp at hlen; omega) hu
      · rw [if_neg (by simpa using h1)] at hu ⊢
        by_cases h2 : c = lb ∧ c2 = '|'
        · rw [if_pos (by simpa using h2)] at hu ⊢
          exact ih cs Closer.bc (k :: st) (by simp at hlen; omega) hu
        · rw [if_neg (by simpa using h2)] at hu ⊢
          by_cases h3 : (k = Closer.tc ∧ c = rb) ∧ c2 = rb
          · rw [if_pos (by simpa using h3)] at hu ⊢
            match st with
            | [] => simp [unterminated] at hu
            | k2 :: st2 => exact ih cs k2 st2 (by simp at hlen; omega) hu
          · rw [if_neg (by simpa using h3)] at hu ⊢
            by_cases h4 : (k = Closer.bc ∧ c = '|') ∧ c2 = rb
            · rw [if_pos (by simpa using h4)] at hu ⊢
              match st with
              | [] => simp [unterminated] at hu
              | k2 :: st2 => exact ih cs k2 st2 (by simp at hlen; omega) hu
            · rw [if_neg (by simpa using h4)] at hu ⊢
              exact ih (c2 :: cs) k st (by simp at hlen ⊢; omega) hu

/-- Second character of the opener pushing closer `k`: `{{` pushes `}}`,
`{|` pushes `|}`. -/
def opener2 : Closer → Char
  | Closer.tc => lb
  | Closer.bc => '|'

/-- C5: an opener with no matching closer before end of input makes the
stripping stage drop the remainder silently: the well-formed prefix is
emitted, nothing from the opener onward is.  (The stage is a total
function, so the cleaner still returns a result.) -/
theorem strip_stage_drops_unterminated (ts : Toks) (tail : List Char)
    (k : Closer)
    (h1 : okToks none ts (some lb) = true)
    (h2 : unterminated tail [k] = true) :
    scan (flatTs ts ++ lb :: opener2 k :: tail) [] = keepTs ts := by
  have htop := scanToksTop ts (lb :: opener2 k :: tail) (by simpa using h1)
  rw [htop]
  have hopen : scan (lb :: opener2 k :: tail) [] = scan tail [k] := by
    cases k <;> simp [scan, opener2, pipe_ne_lb]
  rw [hopen, unterm_scan tail.length tail k [] (Nat.le_refl _) h2]
  simp

/-- Witness for C5: `A{{bc` keeps `A` and drops everything from `{{`. -/
theorem strip_stage_drops_unterminated_witness :
    okToks none (Toks.cons (Tok.raw 'A') Toks.nil) (some lb) = true ∧
    unterminated (("bc").toList) [Closer.tc] = true ∧
    scan (("A\x7b\x7bbc").toList) [] = ("A").toList := by
  refine ⟨by decide, by decide, ?_⟩
  have h := strip_stage_drops_unterminated (Toks.cons (Tok.raw 'A') Toks.nil)
    (("bc").toList) Closer.tc (by decide) (by decide)
  have h2 : flatTs (Toks.cons (Tok.raw 'A') Toks.nil) ++
      lb :: opener2 Closer.tc :: ("bc").toList = ("A\x7b\x7bbc").toList := by decide
  have h3 : keepTs (Toks.cons (Tok.raw 'A') Toks.nil) = ("A").toList := by decide
  rw [← h2, h, h3]

theorem readLinkBody_unclosed :
    ∀ (n : Nat) (cs : List Char) (d : Nat), cs.length ≤ n →
      (readLinkBody cs d).2.2 = false →
      (readLinkBody cs d).1 = cs ∧ (readLinkBody cs d).2.1 = [] := by
  intro n
  induction n with
  | zero =>
    intro cs d hlen _
    match cs with
    | [] => simp [readLinkBody]
    | c :: cs => simp at hlen
  | succ n ih =>
    intro cs d hlen hf
    match cs with
    | [] => simp [readLinkBody]
    | [c] => simp [readLinkBody]
    | c :: c2 :: cs =>
      by_cases h1 : c = '[' ∧ c2 = '['
      · obtain ⟨e1, e2⟩ := h1
        subst e1; subst e2
        simp only [readLinkBody] at hf ⊢
        simp at hf ⊢
        have hr := ih cs (d + 1) (by simp at hlen; omega) hf
        exact hr
      · rw [show readLinkBody (c :: c2 :: cs) d =
            (if c = ']' && c2 = ']' then
              (if d = 1 then ([], cs, true)
               else (']' :: ']' :: (readLinkBody cs (d - 1)).1,
                 (readLinkBody cs (d - 1)).2.1, (readLinkBody cs (d - 1)).2.2))
             else ((c :: (readLinkBody (c2 :: cs) d).1,
               (readLinkBody (c2 :: cs) d).2.1, (readLinkBody (c2 :: cs) d).2.2)))
          from by simp only [readLinkBody]; rw [if_neg (by simpa using h1)]] at hf ⊢
        by_cases h2 : c = ']' ∧ c2 = ']'
        · rw [if_pos (by simpa using h2)] at hf ⊢
          by_cases h3 : d = 1
          · rw [if_pos h3] at hf
            simp at hf
          · rw [if_neg h3] at hf ⊢
            simp at hf ⊢
            obtain ⟨e1, e2⟩ := h2
            subst e1; subst e2
            have hr := ih cs (d - 1) (by simp at hlen; omega) hf
            simp [hr.1, hr.2]
        · rw [if_neg (by simpa using h2)] at hf ⊢
          simp at hf ⊢
          have hr := ih (c2 :: cs) d (by simp at hlen ⊢; omega) hf
          simp [hr.1, hr.2]

/-- No two adjacent `[` characters. -/
def noLL : List Char → Bool
  | a :: b :: t => !(a = '[' && b = '[') && noLL (b :: t)
  | _ => true

theorem removeFileLinksF_skip :
    ∀ (pre : List Char) (n : Nat) (tail : List Char),
      noLL (pre ++ ['[']) = true →
      (readLinkBody tail 1).2.2 = false →
      pre.length + (2 + tail.length) ≤ n →
      removeFileLinksF n (pre ++ '[' :: '[' :: tail) =
        pre ++ '[' :: '[' :: tail := by
  intro pre
  induction pre with
  | nil =>
    intro n tail _ hu hn
    match n with
    | 0 => simp at hn
    | n + 1 =>
      have hr := readLinkBody_unclosed tail.length tail 1 (Nat.le_refl _) hu
      simp only [List.nil_append, removeFileLinksF, if_true, hu]
      simp [hr.1]
  | cons c pre ih =>
    intro n tail hp hu hn
    match n with
    | 0 => simp at hn
    | n + 1 =>
      have hp2 : noLL (pre ++ ['[']) = true := by
        match hpre : pre ++ ['['] with
        | [] => simp at hpre
        | b :: t =>
          have hcb : noLL (c :: b :: t) = true := by
            rw [← hpre]
            simpa using hp
          simp [noLL] at hcb
          simpa [hpre, noLL] using hcb.2
      have hstep : removeFileLinksF (n + 1) (c :: (pre ++ '[' :: '[' :: tail)) =
          c :: removeFileLinksF n (pre ++ '[' :: '[' :: tail) := by
        by_cases hc : c = '['
        · subst hc
          match pre with
          | [] =>
            exfalso
            simp [noLL] at hp
          | p :: pre2 =>
            have hcp : ¬(p = '[') := by
              have h0 := hp
              simp [noLL] at h0
              exact h0.1
            simp only [removeFileLinksF, List.cons_append, if_true]
            rw [if_neg hcp]
        · simp only [removeFileLinksF]
          rw [if_neg hc]
      rw [List.cons_append, hstep, ih n tail hp2 hu (by simp at hn; omega)]

/-- C6: a `[[` with no matching `]]` before end of input is re-emitted by
the File/Image/Category removal stage together with all captured
following characters, as literal text (passthrough), unlike the brace
stripper which drops unterminated structures. -/
theorem unclosed_link_passthrough (pre tail : List Char)
    (hp : noLL (pre ++ ['[']) = true)
    (hu : (readLinkBody tail 1).2.2 = false) :
    removeFileLinks (pre ++ '[' :: '[' :: tail) =
      pre ++ '[' :: '[' :: tail := by
  exact removeFileLinksF_skip pre (pre ++ '[' :: '[' :: tail).length tail hp hu
    (by simp; omega)

/-- Witness for C6: `a[[b[[c]]d` is unterminated and passes through. -/
theorem unclosed_link_passthrough_witness :
    noLL (("a").toList ++ ['[']) = true ∧
    (readLinkBody (("b[[c]]d").toList) 1).2.2 = false ∧
    removeFileLinks (("a[[b[[c]]d").toList) = ("a[[b[[c]]d").toList := by
  refine ⟨by decide, by decide, ?_⟩
  have h := unclosed_link_passthrough (("a").toList) (("b[[c]]d").toList)
    (by decide) (by decide)
  have h2 : ("a").toList ++ '[' :: '[' :: ("b[[c]]d").toList =
      ("a[[b[[c]]d").toList := by decide
  rw [h2] at h
  exact h

theorem tw_all (p : Char → Bool) (l : List Char)
    (h : ∀ c ∈ l, p c = true) : tw p l = l := by
  induction l with
  | nil => rfl
  | cons c l ih =>
    simp [tw, h c (by simp), ih (fun d hd => h d (by simp [hd]))]

theorem tw_append_stop (p : Char → Bool) (a : List Char) (c0 : Char)
    (l : List Char) (h : ∀ c ∈ a, p c = true) (hc : p c0 = false) :
    tw p (a ++ c0 :: l) = a := by
  rw [tw_append_of_all p a (c0 :: l) h, tw_cons_neg p c0 l hc]
  simp

theorem dw_append_stop (p : Char → Bool) (a : List Char) (c0 : Char)
    (l : List Char) (h : ∀ c ∈ a, p c = true) (hc : p c0 = false) :
    dw p (a ++ c0 :: l) = c0 :: l := by
  rw [dw_append_of_all p a (c0 :: l) h, dw_cons_neg p c0 l hc]

theorem noLL_pair (a b : Char) (t : List Char) (h : noLL (a :: b :: t) = true) :
    ¬(a = '[' ∧ b = '[') ∧ noLL (b :: t) = true := by
  simp [noLL] at h
  exact ⟨by tauto, h.2⟩

theorem mLinkRaw_none (a b : Char) (cs : List Char)
    (h : ¬(a = '[' ∧ b = '[')) : mLinkRaw (a :: b :: cs) = none := by
  have hpat : ("[[").toList = ['[', '['] := rfl
  by_cases ha : a = '['
  · have hb : ¬(b = '[') := fun hb => h ⟨ha, hb⟩
    simp [mLinkRaw, hpat, stripPre, ha, hb]
  · simp [mLinkRaw, hpat, stripPre, ha]

theorem mLinkRaw_link (content suf : List Char) (hc : ']' ∉ content) :
    mLinkRaw ('[' :: '[' :: (content ++ (']' :: ']' :: suf))) =
      some (content, suf) := by
  have hall : ∀ c ∈ content, (decide (c ≠ ']')) = true := by
    intro c hmem
    simp
    intro he
    exact hc (he ▸ hmem)
  have hstrip : stripPre (("[[").toList)
      ('[' :: '[' :: (content ++ (']' :: ']' :: suf))) =
      some (content ++ (']' :: ']' :: suf)) := by
    exact stripPre_self ['[', '['] (content ++ (']' :: ']' :: suf))
  simp only [mLinkRaw, hstrip]
  rw [tw_append_stop _ content ']' (']' :: suf) hall (by simp),
    dw_append_stop _ content ']' (']' :: suf) hall (by simp)]
  simp

theorem firstLinkCap_skip (pre : List Char) :
    ∀ rest2, noLL (pre ++ ['[']) = true →
      firstLinkCap (pre ++ '[' :: rest2) = firstLinkCap ('[' :: rest2) := by
  induction pre with
  | nil => intro rest2 _; rfl
  | cons c pre ih =>
    intro rest2 hp
    have hstep : firstLinkCap (c :: (pre ++ '[' :: rest2)) =
        firstLinkCap (pre ++ '[' :: rest2) := by
      match hpre : pre with
      | [] =>
        have h0 := noLL_pair c '[' [] (by simpa using hp)
        simp only [List.nil_append]
        simp only [firstLinkCap, mLinkRaw_none c '[' rest2 h0.1]
      | p :: pre2 =>
        have h0 := noLL_pair c p (pre2 ++ ['[']) (by simpa using hp)
        simp only [List.cons_append]
        simp only [firstLinkCap,
          mLinkRaw_none c p (pre2 ++ '[' :: rest2) h0.1]
    have hp2 : noLL (pre ++ ['[']) = true := by
      match hpre : pre with
      | [] => simp [noLL]
      | p :: pre2 =>
        have h0 := noLL_pair c p (pre2 ++ ['[']) (by simpa using hp)
        simpa using h0.2
    rw [List.cons_append, hstep, ih rest2 hp2]

/-- C7: on redirect text, `extract_redirect_target` returns the content
of the first `[[...]]` link, truncated before the first `|`. -/
theorem redirect_target_is_first_link (pre content suf : List Char)
    (hp : noLL (pre ++ ['[']) = true)
    (hc : ']' ∉ content)
    (hr : isRedirect (pre ++ ('[' :: '[' :: (content ++ (']' :: ']' :: suf)))) = true) :
    extractRedirectTarget (pre ++ ('[' :: '[' :: (content ++ (']' :: ']' :: suf)))) =
      some (tw (fun c => c ≠ '|') content) := by
  have hfl : firstLinkCap (pre ++ ('[' :: '[' :: (content ++ (']' :: ']' :: suf)))) =
      some content := by
    rw [firstLinkCap_skip pre ('[' :: (content ++ (']' :: ']' :: suf))) hp]
    simp only [firstLinkCap, mLinkRaw_link content suf hc]
  simp only [extractRedirectTarget, hr, if_true, hfl, Option.map_some]
  by_cases hm : '|' ∈ content
  · simp [hm]
  · simp [hm]
    rw [tw_all]
    intro c hmem
    simp
    intro he
    exact hm (he ▸ hmem)

/-- Witness for C7: `#REDIRECT [[United States]]` yields
`United States`. -/
theorem redirect_target_is_first_link_witness :
    isRedirect (("#REDIRECT [[United States]]").toList) = true ∧
    extractRedirectTarget (("#REDIRECT [[United States]]").toList) =
      some (("United States").toList) := by
  refine ⟨by decide, ?_⟩
  have h := redirect_target_is_first_link (("#REDIRECT ").toList)
    (("United States").toList) [] (by decide) (by decide) (by decide)
  have h2 : (("#REDIRECT ").toList ++
      ('[' :: '[' :: ((("United States").toList) ++ (']' :: ']' :: ([] : List Char))))) =
      ("#REDIRECT [[United States]]").toList := by decide
  have h3 : tw (fun c => c ≠ '|') (("United States").toList) =
      ("United States").toList := by decide
  rw [h2, h3] at h
  exact h

theorem dw_length (p : Char → Bool) (l : List Char) :
    (dw p l).length ≤ l.length := by
  induction l with
  | nil => simp [dw]
  | cons c l ih =>
    by_cases hc : p c
    · simp [dw, hc]; omega
    · simp [dw, hc]

theorem mPipeRaw_progress (cs : List Char) (t x rest : List Char)
    (h : mPipeRaw cs = some (t, x, rest)) : rest.length + 5 ≤ cs.length := by
  simp only [mPipeRaw] at h
  split at h
  · simp at h
  · next r0 hs =>
    have hcs : cs.length = r0.length + 2 := by
      have := stripPre_some_eq _ cs r0 hs
      simp [this]
    split at h
    · simp at h
    · next c1 r1 hd =>
      have hd1 : r1.length + 1 ≤ r0.length := by
        have hh := dw_length (fun c => c ≠ ']' && c ≠ '|') r0
        rw [hd] at hh
        simpa using hh
      split at h
      · split at h
        · next b1 b2 rest2 hd2 =>
          have hd2l : rest2.length + 2 ≤ r1.length := by
            have hh := dw_length (fun d => d ≠ ']') r1
            rw [hd2] at hh
            simpa using hh
          split at h
          · simp at h
            rw [← h.2.2]
            omega
          · simp at h
        · simp at h
      · simp at h

theorem mPipeRaw_link (tgt txt suf : List Char)
    (ht : ∀ c ∈ tgt, ¬(c = ']') ∧ ¬(c = '|')) (hx : ']' ∉ txt) :
    mPipeRaw ('[' :: '[' :: (tgt ++ ('|' :: (txt ++ (']' :: ']' :: suf))))) =
      some (tgt, txt, suf) := by
  have hallt : ∀ c ∈ tgt, (decide (c ≠ ']') && decide (c ≠ '|')) = true := by
    intro c hmem
    have := ht c hmem
    simp [this.1, this.2]
  have hallx : ∀ c ∈ txt, (decide (c ≠ ']')) = true := by
    intro c hmem
    simp
    intro he
    exact hx (he ▸ hmem)
  have hstrip : stripPre (("[[").toList)
      ('[' :: '[' :: (tgt ++ ('|' :: (txt ++ (']' :: ']' :: suf))))) =
      some (tgt ++ ('|' :: (txt ++ (']' :: ']' :: suf)))) :=
    stripPre_self ['[', '['] _
  simp only [mPipeRaw, hstrip]
  rw [tw_append_stop _ tgt '|' (txt ++ (']' :: ']' :: suf)) hallt (by simp),
    dw_append_stop _ tgt '|' (txt ++ (']' :: ']' :: suf)) hallt (by simp)]
  simp only [if_pos rfl]
  rw [tw_append_stop _ txt ']' (']' :: suf) hallx (by simp),
    dw_append_stop _ txt ']' (']' :: suf) hallx (by simp)]
  simp

theorem mPipe_start (valid : Option (List (List Char))) (c : Char)
    (cs : List Char) (r : List Char × List Char)
    (h : mPipe valid (c :: cs) = some r) : c = '[' := by
  simp only [mPipe] at h
  cases hr : mPipeRaw (c :: cs) with
  | none => rw [hr] at h; simp at h
  | some r0 =>
    simp only [mPipeRaw] at hr
    split at hr
    · simp at hr
    · next r1 hs =>
      have heq := stripPre_some_eq _ _ _ hs
      have hpat : ("[[").toList = '[' :: '[' :: [] := rfl
      rw [hpat] at heq
      simp at heq
      exact heq.1

theorem mPipe_progress (valid : Option (List (List Char))) (c : Char)
    (cs : List Char) (r : List Char × List Char)
    (h : mPipe valid (c :: cs) = some r) : r.2.length ≤ cs.length := by
  simp only [mPipe] at h
  cases hr : mPipeRaw (c :: cs) with
  | none => rw [hr] at h; simp at h
  | some r0 =>
    rw [hr] at h
    have hp := mPipeRaw_progress (c :: cs) r0.1 r0.2.1 r0.2.2 (by simpa using hr)
    simp at h
    rw [← h]
    simp at hp ⊢
    omega

/-- Core single-link lemma for the `LINK_PIPE_RE` stage: a piped link
preceded by bracketless text becomes the closure output, and scanning
continues on the suffix. -/
theorem pipeStep_single (valid : Option (List (List Char)))
    (tgt txt pre suf : List Char)
    (hpre : '[' ∉ pre)
    (ht : ∀ c ∈ tgt, ¬(c = ']') ∧ ¬(c = '|')) (hx : ']' ∉ txt) :
    pipeStep valid
      (pre ++ ('[' :: '[' :: (tgt ++ ('|' :: (txt ++ (']' :: ']' :: suf)))))) =
      pre ++ (pipeOut valid tgt txt ++ pipeStep valid suf) := by
  have hm : mPipe valid ('[' :: '[' :: (tgt ++ ('|' :: (txt ++ (']' :: ']' :: suf))))) =
      some (pipeOut valid tgt txt, suf) := by
    simp only [mPipe, mPipeRaw_link tgt txt suf ht hx]
  have hskip := scanRepl_skip (mPipe valid) pre
    ((pre ++ ('[' :: '[' :: (tgt ++ ('|' :: (txt ++ (']' :: ']' :: suf)))))).length)
    ('[' :: '[' :: (tgt ++ ('|' :: (txt ++ (']' :: ']' :: suf)))))
    (fun p1 p2 hp hne => by
      match p2 with
      | [] => exact absurd rfl hne
      | c :: p2 =>
        cases hmm : mPipe valid ((c :: p2) ++
            ('[' :: '[' :: (tgt ++ ('|' :: (txt ++ (']' :: ']' :: suf)))))) with
        | none => rfl
        | some r =>
          exfalso
          have hc := mPipe_start valid c _ r (by simpa using hmm)
          have hcmem : c ∈ pre := by rw [hp]; simp
          exact hpre (hc ▸ hcmem))
    (by simp)
  unfold pipeStep
  rw [hskip]
  have hlen : ((pre ++ ('[' :: '[' :: (tgt ++ ('|' :: (txt ++ (']' :: ']' :: suf)))))).length)
      - pre.length = (tgt ++ ('|' :: (txt ++ (']' :: ']' :: suf)))).length + 2 := by
    simp
  rw [hlen]
  have hunf : scanRepl (mPipe valid) ((tgt ++ ('|' :: (txt ++ (']' :: ']' :: suf)))).length + 2)
      ('[' :: '[' :: (tgt ++ ('|' :: (txt ++ (']' :: ']' :: suf))))) =
      pipeOut valid tgt txt ++
        scanRepl (mPipe valid) ((tgt ++ ('|' :: (txt ++ (']' :: ']' :: suf)))).length + 1) suf := by
    rw [show ((tgt ++ ('|' :: (txt ++ (']' :: ']' :: suf)))).length + 2) =
      ((tgt ++ ('|' :: (txt ++ (']' :: ']' :: suf)))).length + 1) + 1 from rfl]
    simp only [scanRepl]
    rw [hm]
  rw [hunf]
  have hfuel : scanRepl (mPipe valid)
      ((tgt ++ ('|' :: (txt ++ (']' :: ']' :: suf)))).length + 1) suf =
      scanRepl (mPipe valid) suf.length suf := by
    refine scanRepl_fuel (mPipe valid)
      (fun c cs r h => mPipe_progress valid c cs r h) _ suf suf.length ?_ (Nat.le_refl _)
    simp
    omega
  rw [hfuel]

/-- C2: with `valid_titles = Some(S)`, a piped link `[[Target|Display]]`
becomes an anchor with the escaped display as visible text exactly when
the normalized target (lowercased, underscores to spaces) is a member of
`S`, and the escaped display alone otherwise; with `None` the anchor is
always emitted.  The two closed conjuncts check the pruning examples with
`S = {"existing page"}` through the whole of
`clean_wiki_markup_with_filter`. -/
theorem piped_link_pruning :
    (∀ (s : List (List Char)) (tgt txt pre suf : List Char),
      '[' ∉ pre → (∀ c ∈ tgt, ¬(c = ']') ∧ ¬(c = '|')) → ']' ∉ txt →
      pipeStep (some s)
        (pre ++ ('[' :: '[' :: (tgt ++ ('|' :: (txt ++ (']' :: ']' :: suf)))))) =
        pre ++ ((if s.contains (normTitle tgt) then anchorL tgt txt
                 else htmlEscape txt) ++ pipeStep (some s) suf)) ∧
    (∀ (tgt txt pre suf : List Char),
      '[' ∉ pre → (∀ c ∈ tgt, ¬(c = ']') ∧ ¬(c = '|')) → ']' ∉ txt →
      pipeStep none
        (pre ++ ('[' :: '[' :: (tgt ++ ('|' :: (txt ++ (']' :: ']' :: suf)))))) =
        pre ++ (anchorL tgt txt ++ pipeStep none suf)) ∧
    cleanWithFilter (some [("existing page").toList])
      (("[[Missing Page|text]]").toList) = ("text").toList ∧
    cleanWithFilter (some [("existing page").toList])
      (("[[Existing Page|text]]").toList) =
      ("<a href=\"/wiki/Existing%20Page\">text</a>").toList := by
  refine ⟨?_, ?_, by decide, by decide⟩
  · intro s tgt txt pre suf h1 h2 h3
    exact pipeStep_single (some s) tgt txt pre suf h1 h2 h3
  · intro tgt txt pre suf h1 h2 h3
    exact pipeStep_single none tgt txt pre suf h1 h2 h3

/-- Witness for C2: with `S = {"existing page"}`, `[[Missing Page|text]]`
loses its anchor and `[[Existing Page|text]]` keeps it. -/
theorem piped_link_pruning_witness :
    pipeStep (some [("existing page").toList])
      ([] ++ ('[' :: '[' :: ((("Missing Page").toList) ++
        ('|' :: ((("text").toList) ++ (']' :: ']' :: ([] : List Char))))))) =
      [] ++ ((if [("existing page").toList].contains
                (normTitle (("Missing Page").toList)) then
                anchorL (("Missing Page").toList) (("text").toList)
              else htmlEscape (("text").toList)) ++
        pipeStep (some [("existing page").toList]) []) ∧
    pipeStep (some [("existing page").toList])
      ([] ++ ('[' :: '[' :: ((("Existing Page").toList) ++
        ('|' :: ((("text").toList) ++ (']' :: ']' :: ([] : List Char))))))) =
      [] ++ ((if [("existing page").toList].contains
                (normTitle (("Existing Page").toList)) then
                anchorL (("Existing Page").toList) (("text").toList)
              else htmlEscape (("text").toList)) ++
        pipeStep (some [("existing page").toList]) []) := by
  exact ⟨piped_link_pruning.1 [("existing page").toList] (("Missing Page").toList)
      (("text").toList) [] [] (by decide) (by decide) (by decide),
    piped_link_pruning.1 [("existing page").toList] (("Existing Page").toList)
      (("text").toList) [] [] (by decide) (by decide) (by decide)⟩

theorem linkStep_single (valid : Option (List (List Char))) (tgt : List Char)
    (hc : ']' ∉ tgt) :
    linkStep valid ('[' :: '[' :: (tgt ++ (']' :: ']' :: []))) =
      linkOut valid tgt := by
  have hm : mLink valid ('[' :: '[' :: (tgt ++ (']' :: ']' :: []))) =
      some (linkOut valid tgt, []) := by
    simp only [mLink, mLinkRaw_link tgt [] hc]
  unfold linkStep
  rw [show ('[' :: '[' :: (tgt ++ (']' :: ']' :: ([] : List Char)))).length =
    (tgt.length + 3) + 1 from by simp; try omega]
  simp only [scanRepl]
  rw [hm]
  simp [scanRepl]

/-- The per-character escaping table the spec describes. -/
def escSpec (c : Char) : List Char :=
  if c = '&' then ("&amp;").toList
  else if c = '<' then ("&lt;").toList
  else if c = '>' then ("&gt;").toList
  else if c = '"' then ("&quot;").toList
  else if c = apos then ("&#x27;").toList
  else [c]

theorem replC_cons (p : Char) (r : List Char) (c : Char) (s : List Char) :
    replC p r (c :: s) = (if c = p then r else [c]) ++ replC p r s := by
  simp [replC]

theorem replC_append (p : Char) (r a b : List Char) :
    replC p r (a ++ b) = replC p r a ++ replC p r b := by
  simp [replC]

theorem htmlEscape_cons (c : Char) (s : List Char) :
    htmlEscape (c :: s) = htmlEscape [c] ++ htmlEscape s := by
  have h1 : (c :: s) = [c] ++ s := rfl
  rw [h1]
  simp only [htmlEscape, replC_append]

theorem htmlEscape_single (c : Char) : htmlEscape [c] = escSpec c := by
  by_cases h1 : c = '&'
  · subst h1; decide
  · by_cases h2 : c = '<'
    · subst h2; decide
    · by_cases h3 : c = '>'
      · subst h3; decide
      · by_cases h4 : c = '"'
        · subst h4; decide
        · by_cases h5 : c = apos
          · subst h5; decide
          · simp [htmlEscape, replC, escSpec, h1, h2, h3, h4, h5]

theorem htmlEscape_flatMap (s : List Char) :
    htmlEscape s = s.flatMap escSpec := by
  induction s with
  | nil => decide
  | cons c s ih => rw [htmlEscape_cons, htmlEscape_single, ih]; simp

/-- C3: the visible text of both link forms is emitted HTML-escaped, and
the escaping replaces exactly `&`, `<`, `>`, `"`, `'` by `&amp;`,
`&lt;`, `&gt;`, `&quot;`, `&#x27;` and keeps every other character. -/
theorem link_text_html_escaped :
    (∀ (tgt txt : List Char),
      (∀ c ∈ tgt, ¬(c = ']') ∧ ¬(c = '|')) → ']' ∉ txt →
      pipeStep none ('[' :: '[' :: (tgt ++ ('|' :: (txt ++ (']' :: ']' :: []))))) =
        ("<a href=\"/wiki/").toList ++ urlencode tgt ++ ("\">").toList ++
          htmlEscape txt ++ ("</a>").toList) ∧
    (∀ tgt : List Char, ']' ∉ tgt →
      linkStep none ('[' :: '[' :: (tgt ++ (']' :: ']' :: []))) =
        ("<a href=\"/wiki/").toList ++ urlencode tgt ++ ("\">").toList ++
          htmlEscape tgt ++ ("</a>").toList) ∧
    (∀ s : List Char, htmlEscape s = s.flatMap escSpec) := by
  refine ⟨?_, ?_, htmlEscape_flatMap⟩
  · intro tgt txt ht hx
    have h := pipeStep_single none tgt txt [] [] (by simp) ht hx
    simpa [pipeStep, scanRepl, pipeOut, anchorL] using h
  · intro tgt hc
    have h := linkStep_single none tgt hc
    simpa [linkOut, anchorL] using h

/-- Witness for C3: a display text with a double quote is escaped to
`&quot;` inside the anchor. -/
theorem link_text_html_escaped_witness :
    pipeStep none ('[' :: '[' :: ((("Link").toList) ++
      ('|' :: ((("Text \" q").toList) ++ (']' :: ']' :: ([] : List Char)))))) =
      ("<a href=\"/wiki/").toList ++ urlencode (("Link").toList) ++
        ("\">").toList ++ htmlEscape (("Text \" q").toList) ++ ("</a>").toList ∧
    htmlEscape (("Text \" q").toList) = ("Text &quot; q").toList := by
  exact ⟨link_text_html_escaped.1 (("Link").toList) (("Text \" q").toList)
    (by decide) (by decide), by decide⟩

/-- One `replace_all` step around a match: characters of `pre` never
start a match, the matcher fires on `span ++ suf` consuming exactly
`span`, and scanning resumes on `suf`. -/
theorem scanRepl_once (m : List Char → Option (List Char × List Char))
    (p : Char → Bool)
    (hstart : ∀ c cs r, m (c :: cs) = some r → p c = true)
    (hprog : ∀ c cs r, m (c :: cs) = some r → r.2.length ≤ cs.length)
    (pre span out suf : List Char)
    (hpre : ∀ c ∈ pre, p c = false)
    (hm : m (span ++ suf) = some (out, suf))
    (hspan : span ≠ []) :
    scanRepl m (pre ++ (span ++ suf)).length (pre ++ (span ++ suf)) =
      pre ++ (out ++ scanRepl m suf.length suf) := by
  have hskip := scanRepl_skip m pre (pre ++ (span ++ suf)).length (span ++ suf)
    (fun p1 p2 hp hne => by
      match p2 with
      | [] => exact absurd rfl hne
      | c :: p2 =>
        cases hmm : m ((c :: p2) ++ (span ++ suf)) with
        | none => rfl
        | some r =>
          exfalso
          have hc := hstart c _ r (by simpa using hmm)
          have hcmem : c ∈ pre := by rw [hp]; simp
          rw [hpre c hcmem] at hc
          exact absurd hc (by simp))
    (by simp)
  rw [hskip]
  have hlen : (pre ++ (span ++ suf)).length - pre.length = (span ++ suf).length := by
    simp
  rw [hlen]
  match hsp : span with
  | [] => exact absurd rfl hspan
  | c :: span2 =>
    have hlen2 : ((c :: span2) ++ suf).length = (span2.length + suf.length) + 1 := by
      simp
      try omega
    rw [hlen2]
    have hunf : scanRepl m ((span2.length + suf.length) + 1) ((c :: span2) ++ suf) =
        out ++ scanRepl m (span2.length + suf.length) suf := by
      simp only [List.cons_append, scanRepl, List.append_eq]
      rw [show m (c :: (span2 ++ suf)) = some (out, suf) from by simpa using hm]
    rw [hunf]
    have hfuel : scanRepl m (span2.length + suf.length) suf =
        scanRepl m suf.length suf :=
      scanRepl_fuel m hprog _ suf suf.length (by omega) (Nat.le_refl _)
    rw [hfuel]

/-- No two adjacent occurrences of the character `x`. -/
def noPair (x : Char) : List Char → Bool
  | a :: b :: t => !(a = x && b = x) && noPair x (b :: t)
  | _ => true

theorem noPair_split (x : Char) :
    ∀ (p1 : List Char) (a b : Char) (t : List Char),
      noPair x (p1 ++ a :: b :: t) = true → ¬(a = x ∧ b = x) := by
  intro p1
  induction p1 with
  | nil =>
    intro a b t h
    simp [noPair] at h
    tauto
  | cons c p1 ih =>
    intro a b t h
    refine ih a b t ?_
    match hsp : p1 ++ a :: b :: t with
    | [] => simp at hsp
    | d :: t2 =>
      have h2 : noPair x (c :: d :: t2) = true := by rw [← hsp]; simpa using h
      simp [noPair] at h2
      exact h2.2

/-- Counterexample to C8 as stated: `[^=]` also matches newlines, so a
`={2,}...={2,}` run whose markers sit on different lines is still
deleted (replaced by one newline).  On `x ==a\nb== y` the step removes
the two-line stretch `==a\nb==`, which the claim says it must leave
unaffected. -/
theorem header_removal_spans_lines_cex :
    headerStep (("x ==a\nb== y").toList) = ("x \n y").toList ∧
    headerStep (("x ==a\nb== y").toList) ≠ ("x ==a\nb== y").toList := by
  exact ⟨by decide, by decide⟩

theorem mHeader_none_single (c : Char) : mHeader [c] = none := by
  by_cases hc : c = '='
  · subst hc; decide
  · simp [mHeader, tw, hc]

theorem mHeader_none (c c2 : Char) (cs : List Char)
    (h : ¬(c = '=' ∧ c2 = '=')) : mHeader (c :: c2 :: cs) = none := by
  by_cases hc : c = '='
  · have hc2 : ¬(c2 = '=') := fun h2 => h ⟨hc, h2⟩
    simp [mHeader, tw, hc, hc2]
  · simp [mHeader, tw, hc]

theorem mHeader_start (c : Char) (cs : List Char) (r : List Char × List Char)
    (h : mHeader (c :: cs) = some r) : c = '=' := by
  by_cases hc : c = '='
  · exact hc
  · simp [mHeader, tw, hc] at h

theorem mHeader_progress (c : Char) (cs : List Char) (r : List Char × List Char)
    (h : mHeader (c :: cs) = some r) : r.2.length ≤ cs.length := by
  by_cases hc : c = '='
  · subst hc
    simp only [mHeader] at h
    split at h
    · simp at h
    · split at h
      · simp at h
      · split at h
        · simp at h
        · simp only [Option.some.injEq] at h
          rw [← h]
          simp only []
          have l1 : dw (fun c => c = '=') ('=' :: cs) = dw (fun c => c = '=') cs := by
            simp [dw]
          rw [l1]
          have l2 := dw_length (fun c => c = '=') cs
          have l3 := dw_length (fun c => c ≠ '=')
            (dw (fun c => c = '=') cs)
          have l4 := dw_length (fun c => c = '=')
            (dw (fun c => c ≠ '=') (dw (fun c => c = '=') cs))
          omega
  · simp [mHeader, tw, hc] at h

theorem mHeader_link (mid suf : List Char) (hm : mid ≠ []) (hmid : '=' ∉ mid)
    (hsuf : suf.head? ≠ some '=') :
    mHeader ('=' :: '=' :: (mid ++ ('=' :: '=' :: suf))) = some (['\n'], suf) := by
  cases mid with
  | nil => exact absurd rfl hm
  | cons m0 mid2 =>
    have hm0 : ¬(m0 = '=') := fun he => hmid (by simp [he])
    have hallmid : ∀ c ∈ m0 :: mid2, (decide (¬(c = '='))) = true := by
      intro c hmem
      simp
      intro he
      exact hmid (he ▸ hmem)
    have htwsuf : tw (fun c => c = '=') suf = [] := by
      cases suf with
      | nil => rfl
      | cons s0 suf2 =>
        refine tw_cons_neg _ s0 suf2 ?_
        simp
        intro he
        exact hsuf (by simp [he])
    have hdwsuf : dw (fun c => c = '=') suf = suf := by
      cases suf with
      | nil => rfl
      | cons s0 suf2 =>
        refine dw_cons_neg _ s0 suf2 ?_
        simp
        intro he
        exact hsuf (by simp [he])
    have he1 : tw (fun c => c = '=')
        ('=' :: '=' :: ((m0 :: mid2) ++ ('=' :: '=' :: suf))) = ['=', '='] := by
      simp [tw, hm0]
    have hr1 : dw (fun c => c = '=')
        ('=' :: '=' :: ((m0 :: mid2) ++ ('=' :: '=' :: suf))) =
        (m0 :: mid2) ++ ('=' :: '=' :: suf) := by
      simp [dw, hm0]
    have hmid2 : tw (fun c => ¬(c = '=')) ((m0 :: mid2) ++ ('=' :: '=' :: suf)) =
        m0 :: mid2 :=
      tw_append_stop _ (m0 :: mid2) '=' ('=' :: suf) hallmid (by simp)
    have hr2 : dw (fun c => ¬(c = '=')) ((m0 :: mid2) ++ ('=' :: '=' :: suf)) =
        '=' :: '=' :: suf :=
      dw_append_stop _ (m0 :: mid2) '=' ('=' :: suf) hallmid (by simp)
    have he2 : tw (fun c => c = '=') ('=' :: '=' :: suf) = ['=', '='] := by
      simp [tw, htwsuf]
    have hrest : dw (fun c => c = '=') ('=' :: '=' :: suf) = suf := by
      simp [dw, hdwsuf]
    simp only [mHeader, he1, hr1, hmid2, hr2, he2, hrest]
    simp

theorem headerStep_id (u : List Char) (h : noPair '=' u = true) :
    headerStep u = u := by
  refine scanRepl_id mHeader u u.length ?_ (Nat.le_refl _)
  intro p1 p2 hp hne
  match p2 with
  | [] => exact absurd rfl hne
  | [c] => exact mHeader_none_single c
  | c :: d :: p3 =>
    exact mHeader_none c d p3 (noPair_split '=' p1 c d p3 (hp ▸ h))

/-- C8, amended: each run matching `={2,}[^=]+={2,}` — the inner stretch
may include newlines, so the two marker runs need not sit on one line —
is replaced by a single newline, the heading text is discarded, and text
containing no `==` pair is left unaffected. -/
theorem header_removal_amended :
    (∀ (pre mid suf : List Char),
      '=' ∉ pre → mid ≠ [] → '=' ∉ mid → suf.head? ≠ some '=' →
      headerStep (pre ++ ('=' :: '=' :: (mid ++ ('=' :: '=' :: suf)))) =
        pre ++ ('\n' :: headerStep suf)) ∧
    (∀ u : List Char, noPair '=' u = true → headerStep u = u) := by
  constructor
  · intro pre mid suf hpre hm hmid hsuf
    have honce := scanRepl_once mHeader (fun c => c = '=')
      (fun c cs r h => by simp [mHeader_start c cs r h]) mHeader_progress pre
      ('=' :: '=' :: (mid ++ ['=', '='])) ['\n'] suf
      (fun c hc => by
        simp
        intro he
        exact hpre (he ▸ hc))
      (by
        have := mHeader_link mid suf hm hmid hsuf
        have hre : ('=' :: '=' :: (mid ++ ['=', '='])) ++ suf =
            '=' :: '=' :: (mid ++ ('=' :: '=' :: suf)) := by simp
        rw [hre]
        exact this)
      (by simp)
    unfold headerStep
    have hre2 : pre ++ ('=' :: '=' :: (mid ++ ('=' :: '=' :: suf))) =
        pre ++ (('=' :: '=' :: (mid ++ ['=', '='])) ++ suf) := by simp
    rw [hre2, honce]
    simp
  · exact fun u h => headerStep_id u h

/-- Witness for C8 amended: `ab ==ttt== cd` becomes `ab \n cd` at this
stage, and `=`-pair-free text is untouched. -/
theorem header_removal_amended_witness :
    headerStep (("ab ").toList ++ ('=' :: '=' :: ((("ttt").toList) ++
      ('=' :: '=' :: ((" cd").toList))))) =
      ("ab ").toList ++ ('\n' :: headerStep ((" cd").toList)) ∧
    headerStep (("a = b").toList) = ("a = b").toList := by
  exact ⟨header_removal_amended.1 (("ab ").toList) (("ttt").toList)
      ((" cd").toList) (by decide) (by decide) (by decide) (by decide),
    header_removal_amended.2 (("a = b").toList) (by decide)⟩

/-- Counterexample to C9 as stated: the `.` of `REF_RE` does not match a
newline, so a `<ref>` span whose body contains a newline is NOT deleted
by the reference-removal step (`REF_SELF_RE` does not match it either:
after its `[^/]*` run the next character is not `>`). -/
theorem ref_removal_newline_cex :
    refSelfStep (refStep (("<ref>a\nb</ref>").toList)) =
      ("<ref>a\nb</ref>").toList ∧
    ("<ref>a\nb</ref>").toList ≠ ([] : List Char) := by
  exact ⟨by decide, by decide⟩

theorem stripPre_head_ne (p c : Char) (ps cs : List Char) (h : ¬(c = p)) :
    stripPre (p :: ps) (c :: cs) = none := by
  simp [stripPre, h]

theorem seekLit_body (p0 : Char) (pat' : List Char) :
    ∀ (body suf : List Char),
      (∀ c ∈ body, ¬(c = p0) ∧ ¬(c = '\n')) →
      seekLit (p0 :: pat') (body ++ ((p0 :: pat') ++ suf)) = some suf := by
  intro body
  induction body with
  | nil =>
    intro suf _
    simp only [List.nil_append, List.cons_append, seekLit, List.append_eq]
    rw [show stripPre (p0 :: pat') (p0 :: (pat' ++ suf)) = some suf from
      stripPre_self (p0 :: pat') suf]
  | cons c body ih =>
    intro suf h
    have hc := h c (by simp)
    simp only [List.cons_append, seekLit]
    rw [stripPre_head_ne p0 c pat' _ hc.1]
    simp only [hc.2, if_false]
    have := ih suf (fun d hd => h d (by simp [hd]))
    simpa using this

theorem seekLit_length (pat : List Char) :
    ∀ (cs rest : List Char), seekLit pat cs = some rest →
      rest.length ≤ cs.length := by
  intro cs
  induction cs with
  | nil => intro rest h; simp [seekLit] at h
  | cons c cs ih =>
    intro rest h
    simp only [seekLit] at h
    cases hs : stripPre pat (c :: cs) with
    | some r =>
      rw [hs] at h
      simp at h
      have heq := stripPre_some_eq pat (c :: cs) r hs
      have hlen : cs.length + 1 = pat.length + r.length := by
        have := congrArg List.length heq
        simpa using this
      rw [← h]
      simp
      omega
    | none =>
      rw [hs] at h
      by_cases hc : c = '\n'
      · simp [hc] at h
      · simp [hc] at h
        have := ih rest h
        simp
        omega

theorem mRef_start (c : Char) (cs : List Char) (r : List Char × List Char)
    (h : mRef (c :: cs) = some r) : c = '<' := by
  by_cases hc : c = '<'
  · exact hc
  · have hpat : ("<ref").toList = '<' :: 'r' :: 'e' :: 'f' :: [] := rfl
    simp [mRef, hpat, stripPre, hc] at h

theorem mRef_progress (c : Char) (cs : List Char) (r : List Char × List Char)
    (h : mRef (c :: cs) = some r) : r.2.length ≤ cs.length := by
  simp only [mRef] at h
  split at h
  · simp at h
  · next r1 hs =>
    have heq := stripPre_some_eq _ _ _ hs
    have hlen1 : r1.length + 3 = cs.length := by
      have hl0 : (c :: cs).length = (("<ref").toList).length + r1.length := by
        rw [heq]; simp; omega
      simp at hl0
      omega
    split at h
    · simp at h
    · next c2 r2 hd =>
      have hlen2 : r2.length + 1 ≤ r1.length := by
        have hh := dw_length (fun c => c ≠ '>') r1
        rw [hd] at hh
        simpa using hh
      cases hsk : seekLit (("</ref>").toList) r2 with
      | none => rw [hsk] at h; simp at h
      | some rest =>
        rw [hsk] at h
        simp at h
        have hsl := seekLit_length _ r2 rest hsk
        subst h
        simp
        omega

theorem mRef_link (attrs body suf : List Char)
    (ha : '>' ∉ attrs)
    (hb : ∀ c ∈ body, ¬(c = '<') ∧ ¬(c = '\n')) :
    mRef ((("<ref").toList) ++ (attrs ++ ('>' :: (body ++ ((("</ref>").toList) ++ suf))))) =
      some ([], suf) := by
  have hstrip : stripPre (("<ref").toList)
      ((("<ref").toList) ++ (attrs ++ ('>' :: (body ++ ((("</ref>").toList) ++ suf))))) =
      some (attrs ++ ('>' :: (body ++ ((("</ref>").toList) ++ suf)))) :=
    stripPre_self _ _
  have hallat : ∀ c ∈ attrs, (decide (c ≠ '>')) = true := by
    intro c hmem
    simp
    intro he
    exact ha (he ▸ hmem)
  have hdw : dw (fun c => c ≠ '>') (attrs ++ ('>' :: (body ++ ((("</ref>").toList) ++ suf)))) =
      '>' :: (body ++ ((("</ref>").toList) ++ suf)) :=
    dw_append_stop _ attrs '>' _ hallat (by simp)
  have hclose : ("</ref>").toList = '<' :: (("/ref>").toList) := rfl
  have hseek : seekLit (("</ref>").toList) (body ++ ((("</ref>").toList) ++ suf)) =
      some suf := by
    rw [hclose]
    exact seekLit_body '<' (("/ref>").toList) body suf hb
  simp only [mRef, hstrip, hdw, hseek]

/-- C9 (first regex), amended: `REF_RE` removes a `<ref attrs>body</ref>`
span when the body contains neither a newline nor a `<`. -/
theorem refStep_removes_span (pre attrs body suf : List Char)
    (hpre : '<' ∉ pre) (ha : '>' ∉ attrs)
    (hb : ∀ c ∈ body, ¬(c = '<') ∧ ¬(c = '\n')) :
    refStep (pre ++ ((("<ref").toList) ++ (attrs ++ ('>' :: (body ++ ((("</ref>").toList) ++ suf)))))) =
      pre ++ refStep suf := by
  have honce := scanRepl_once mRef (fun c => c = '<')
    (fun c cs r h => by simp [mRef_start c cs r h]) mRef_progress pre
    ((("<ref").toList) ++ (attrs ++ ('>' :: (body ++ ((("</ref>").toList)))))) [] suf
    (fun c hc => by
      simp
      intro he
      exact hpre (he ▸ hc))
    (by
      have h := mRef_link attrs body suf ha hb
      have hre : ((("<ref").toList) ++ (attrs ++ ('>' :: (body ++ ((("</ref>").toList)))))) ++ suf =
          (("<ref").toList) ++ (attrs ++ ('>' :: (body ++ ((("</ref>").toList) ++ suf)))) := by
        simp
      rw [hre]
      exact h)
    (by simp)
  unfold refStep
  have hre2 : pre ++ ((("<ref").toList) ++ (attrs ++ ('>' :: (body ++ ((("</ref>").toList) ++ suf))))) =
      pre ++ (((("<ref").toList) ++ (attrs ++ ('>' :: (body ++ ((("</ref>").toList)))))) ++ suf) := by
    simp
  rw [hre2, honce]
  simp

theorem mRefSelf_start (c : Char) (cs : List Char) (r : List Char × List Char)
    (h : mRefSelf (c :: cs) = some r) : c = '<' := by
  by_cases hc : c = '<'
  · exact hc
  · have hpat : ("<ref").toList = '<' :: 'r' :: 'e' :: 'f' :: [] := rfl
    simp [mRefSelf, hpat, stripPre, hc] at h

theorem mRefSelf_progress (c : Char) (cs : List Char) (r : List Char × List Char)
    (h : mRefSelf (c :: cs) = some r) : r.2.length ≤ cs.length := by
  simp only [mRefSelf] at h
  split at h
  · simp at h
  · next r1 hs =>
    have heq := stripPre_some_eq _ _ _ hs
    have hlen1 : r1.length + 3 = cs.length := by
      have hl0 : (c :: cs).length = (("<ref").toList).length + r1.length := by
        rw [heq]; simp; omega
      simp at hl0
      omega
    split at h
    · simp at h
    · next c2 r2 hd =>
      have hlen2 : r2.length + 1 ≤ r1.length := by
        have hh := dw_length (fun c => c ≠ '/') r1
        rw [hd] at hh
        simpa using hh
      split at h
      · simp at h
      · next c3 r3 hd3 =>
        have hlen3 : r3.length + 1 ≤ r2.length := by
          have hh := dw_length wsp r2
          rw [hd3] at hh
          simpa using hh
        split at h
        · simp at h
          subst h
          simp
          omega
        · simp at h

theorem mRefSelf_link (attrs ws suf : List Char)
    (ha : '/' ∉ attrs) (hw : ∀ c ∈ ws, wsp c = true) :
    mRefSelf ((("<ref").toList) ++ (attrs ++ ('/' :: (ws ++ ('>' :: suf))))) =
      some ([], suf) := by
  have hstrip : stripPre (("<ref").toList)
      ((("<ref").toList) ++ (attrs ++ ('/' :: (ws ++ ('>' :: suf))))) =
      some (attrs ++ ('/' :: (ws ++ ('>' :: suf)))) :=
    stripPre_self _ _
  have hallat : ∀ c ∈ attrs, (decide (c ≠ '/')) = true := by
    intro c hmem
    simp
    intro he
    exact ha (he ▸ hmem)
  have hdw : dw (fun c => c ≠ '/') (attrs ++ ('/' :: (ws ++ ('>' :: suf)))) =
      '/' :: (ws ++ ('>' :: suf)) :=
    dw_append_stop _ attrs '/' _ hallat (by simp)
  have hdw2 : dw wsp (ws ++ ('>' :: suf)) = '>' :: suf :=
    dw_append_stop wsp ws '>' suf hw (by decide)
  simp only [mRefSelf, hstrip, hdw, hdw2]
  simp

/-- C9 (second regex), amended companion: `REF_SELF_RE` removes a
self-closing `<ref attrs/ ws >` tag. -/
theorem refSelfStep_removes_tag (pre attrs ws suf : List Char)
    (hpre : '<' ∉ pre) (ha : '/' ∉ attrs) (hw : ∀ c ∈ ws, wsp c = true) :
    refSelfStep (pre ++ ((("<ref").toList) ++ (attrs ++ ('/' :: (ws ++ ('>' :: suf)))))) =
      pre ++ refSelfStep suf := by
  have honce := scanRepl_once mRefSelf (fun c => c = '<')
    (fun c cs r h => by simp [mRefSelf_start c cs r h]) mRefSelf_progress pre
    ((("<ref").toList) ++ (attrs ++ ('/' :: (ws ++ ['>'])))) [] suf
    (fun c hc => by
      simp
      intro he
      exact hpre (he ▸ hc))
    (by
      have h := mRefSelf_link attrs ws suf ha hw
      have hre : ((("<ref").toList) ++ (attrs ++ ('/' :: (ws ++ ['>'])))) ++ suf =
          (("<ref").toList) ++ (attrs ++ ('/' :: (ws ++ ('>' :: suf)))) := by
        simp
      rw [hre]
      exact h)
    (by simp)
  unfold refSelfStep
  have hre2 : pre ++ ((("<ref").toList) ++ (attrs ++ ('/' :: (ws ++ ('>' :: suf))))) =
      pre ++ (((("<ref").toList) ++ (attrs ++ ('/' :: (ws ++ ['>'])))) ++ suf) := by
    simp
  rw [hre2, honce]
  simp

/-- C9, amended: the reference-removal step deletes every
`<ref attrs>body</ref>` span whose attrs contain no `>` and whose body
contains no newline and no `<` (the regex `.` does not match `\n`, so
spans with newline bodies survive, see the counterexample), and deletes
every self-closing `<ref .../>` tag. -/
theorem ref_removal_amended :
    (∀ (pre attrs body suf : List Char),
      '<' ∉ pre → '>' ∉ attrs → (∀ c ∈ body, ¬(c = '<') ∧ ¬(c = '\n')) →
      refStep (pre ++ ((("<ref").toList) ++
        (attrs ++ ('>' :: (body ++ ((("</ref>").toList) ++ suf)))))) =
        pre ++ refStep suf) ∧
    (∀ (pre attrs ws suf : List Char),
      '<' ∉ pre → '/' ∉ attrs → (∀ c ∈ ws, wsp c = true) →
      refSelfStep (pre ++ ((("<ref").toList) ++
        (attrs ++ ('/' :: (ws ++ ('>' :: suf)))))) =
        pre ++ refSelfStep suf) :=
  ⟨fun pre attrs body suf h1 h2 h3 => refStep_removes_span pre attrs body suf h1 h2 h3,
   fun pre attrs ws suf h1 h2 h3 => refSelfStep_removes_tag pre attrs ws suf h1 h2 h3⟩

/-- Witness for C9 amended: `x<ref name=a>b</ref>y` loses its span and
`x<ref a/ >y` loses its self-closing tag. -/
theorem ref_removal_amended_witness :
    refStep (("x").toList ++ ((("<ref").toList) ++
      (((" name=a").toList) ++ ('>' :: ((("b").toList) ++
        ((("</ref>").toList) ++ (("y").toList))))))) =
      ("x").toList ++ refStep (("y").toList) ∧
    refSelfStep (("x").toList ++ ((("<ref").toList) ++
      (((" a").toList) ++ ('/' :: (((" ").toList) ++
        ('>' :: (("y").toList))))))) =
      ("x").toList ++ refSelfStep (("y").toList) := by
  exact ⟨ref_removal_amended.1 (("x").toList) ((" name=a").toList)
      (("b").toList) (("y").toList) (by decide) (by decide) (by decide),
    ref_removal_amended.2 (("x").toList) ((" a").toList) ((" ").toList)
      (("y").toList) (by decide) (by decide) (by decide)⟩

theorem mCat_start (c : Char) (cs : List Char) (r : List Char × List Char)
    (h : mCat (c :: cs) = some r) : c = '[' := by
  by_cases hc : c = '['
  · exact hc
  · have hpat : ("[[Category:").toList =
      '[' :: (("[Category:").toList) := rfl
    simp [mCat, hpat, stripPre, hc] at h

theorem extractCatsF_nil : ∀ (n : Nat) (u : List Char), '[' ∉ u →
    extractCatsF n u = [] := by
  intro n
  induction n with
  | zero =>
    intro u _
    cases u <;> simp [extractCatsF]
  | succ n ih =>
    intro u hu
    match u with
    | [] => simp [extractCatsF]
    | c :: cs =>
      have hc : ¬(c = '[') := by
        intro he
        exact hu (by simp [he])
      cases hm : mCat (c :: cs) with
      | some r => exact absurd (mCat_start c cs r hm) hc
      | none =>
        simp only [extractCatsF, hm]
        exact ih cs (fun hmem => hu (by simp [hmem]))

theorem readLinkBody_closed :
    ∀ (body rest : List Char), '[' ∉ body → ']' ∉ body →
      readLinkBody (body ++ (']' :: ']' :: rest)) 1 = (body, rest, true) := by
  intro body
  induction body with
  | nil =>
    intro rest _ _
    simp [readLinkBody]
  | cons c body ih =>
    intro rest h1 h2
    have hc1 : ¬(c = '[') := fun he => h1 (by simp [he])
    have hc2 : ¬(c = ']') := fun he => h2 (by simp [he])
    have ihr := ih rest (fun hmem => h1 (by simp [hmem]))
      (fun hmem => h2 (by simp [hmem]))
    match hb : body ++ (']' :: ']' :: rest) with
    | [] => simp at hb
    | d :: t =>
      have : readLinkBody (c :: d :: t) 1 =
          (c :: (readLinkBody (d :: t) 1).1,
            (readLinkBody (d :: t) 1).2.1, (readLinkBody (d :: t) 1).2.2) := by
        simp only [readLinkBody]
        rw [if_neg (by simp [hc1]), if_neg (by simp [hc2])]
      rw [show (c :: body) ++ (']' :: ']' :: rest) = c :: (body ++ (']' :: ']' :: rest)) from rfl,
        hb, this, ← hb, ihr]

/-- C10: a category declaration spelled with a lowercase `c`,
`[[category:NAME]]`, contributes no entry to `extract_categories` (its
regex requires the capital spelling byte-for-byte), while the cleaning
pipeline still removes the span from the body (its prefix test
lowercases first); so the declaration disappears from both the body and
the category list.  The closed conjunct checks a full pipeline run. -/
theorem lowercase_category_dropped_both (name : List Char)
    (h1 : '[' ∉ name) (h2 : ']' ∉ name) :
    extractCategories ((("[[category:").toList) ++ (name ++ ((("]]").toList)))) = [] ∧
    removeFileLinks ((("[[category:").toList) ++ (name ++ ((("]]").toList)))) = [] ∧
    cleanWikiMarkup (("a[[category:X]]b").toList) = ("ab").toList := by
  refine ⟨?_, ?_, by decide⟩
  · have hre : (("[[category:").toList) ++ (name ++ ((("]]").toList))) =
        '[' :: '[' :: ((("category:").toList) ++ (name ++ (']' :: ']' :: []))) := by
      simp
    rw [hre]
    have hlen : ('[' :: '[' :: ((("category:").toList) ++ (name ++ (']' :: ']' :: [])))).length =
        (((("category:").toList) ++ (name ++ (']' :: ']' :: []))).length + 1) + 1 := by
      simp
    unfold extractCategories
    rw [hlen]
    have hm1 : mCat ('[' :: '[' :: ((("category:").toList) ++ (name ++ (']' :: ']' :: [])))) =
        none := by
      have hpat : ("[[Category:").toList =
        '[' :: '[' :: 'C' :: (("ategory:").toList) := rfl
      simp [mCat, hpat, stripPre]
    have hm2 : mCat ('[' :: ((("category:").toList) ++ (name ++ (']' :: ']' :: [])))) =
        none := by
      have hpat : ("[[Category:").toList =
        '[' :: '[' :: (("Category:").toList) := rfl
      simp [mCat, hpat, stripPre]
    simp only [extractCatsF, hm1, hm2]
    refine extractCatsF_nil _ _ ?_
    intro hmem
    rcases List.mem_append.mp hmem with hmem | hmem
    · exact absurd hmem (by decide)
    · rcases List.mem_append.mp hmem with hmem | hmem
      · exact h1 hmem
      · exact absurd hmem (by decide)
  · have hre : (("[[category:").toList) ++ (name ++ ((("]]").toList))) =
        '[' :: '[' :: (((("category:").toList) ++ name) ++ (']' :: ']' :: [])) := by
      simp
    rw [hre]
    have hbody1 : '[' ∉ (("category:").toList) ++ name := by
      intro hmem
      rcases List.mem_append.mp hmem with hmem | hmem
      · exact absurd hmem (by decide)
      · exact h1 hmem
    have hbody2 : ']' ∉ (("category:").toList) ++ name := by
      intro hmem
      rcases List.mem_append.mp hmem with hmem | hmem
      · exact absurd hmem (by decide)
      · exact h2 hmem
    have hrb := readLinkBody_closed ((("category:").toList) ++ name) [] hbody1 hbody2
    have hfic : isFIC ((("category:").toList) ++ name) = true := by
      have hdw : dw wsp ((("category:").toList) ++ name) =
          (("category:").toList) ++ name := by
        have : ("category:").toList = 'c' :: (("ategory:").toList) := rfl
        rw [this]
        refine dw_cons_neg wsp 'c' _ ?_
        decide
      have hlow : lowerL ((("category:").toList) ++ name) =
          (("category:").toList) ++ lowerL name := by
        simp only [lowerL, List.map_append]
        congr 1
      have hstrip : stripPre (("category:").toList)
          ((("category:").toList) ++ lowerL name) = some (lowerL name) :=
        stripPre_self _ _
      simp only [isFIC]
      rw [hdw, hlow, hstrip]
      simp
    have hlen : ('[' :: '[' :: (((("category:").toList) ++ name) ++ (']' :: ']' :: []))).length =
        ((((("category:").toList) ++ name) ++ (']' :: ']' :: [])).length + 1) + 1 := by
      simp
    unfold removeFileLinks
    rw [hlen]
    simp only [removeFileLinksF, if_true, hrb, hfic]
    try simp [removeFileLinksF]

/-- Witness for C10 at `NAME = Science`. -/
theorem lowercase_category_dropped_both_witness :
    extractCategories ((("[[category:").toList) ++
      ((("Science").toList) ++ ((("]]").toList)))) = [] ∧
    removeFileLinks ((("[[category:").toList) ++
      ((("Science").toList) ++ ((("]]").toList)))) = [] := by
  have h := lowercase_category_dropped_both (("Science").toList)
    (by decide) (by decide)
  exact ⟨h.1, h.2.1⟩

/-- All whitespace removed: two texts are equal "up to whitespace
differences" exactly when their images under this map agree. -/
def dropWs (u : List Char) : List Char := u.filter (fun c => !(wsp c))

/-- Counterexample to C4 as stated: cleaning `a [[b]] c` once yields an
anchor; cleaning the result again strips the anchor tags (`HTML_RE`
removes `<a ...>` and `</a>`), leaving `a b c` — a non-whitespace
difference, so `clean (clean t)` is not `clean t` up to whitespace. -/
theorem clean_not_idempotent_cex :
    cleanWikiMarkup (("a [[b]] c").toList) =
      ("a <a href=\"/wiki/b\">b</a> c").toList ∧
    cleanWikiMarkup (cleanWikiMarkup (("a [[b]] c").toList)) =
      ("a b c").toList ∧
    dropWs (cleanWikiMarkup (cleanWikiMarkup (("a [[b]] c").toList))) ≠
      dropWs (cleanWikiMarkup (("a [[b]] c").toList)) := by
  exact ⟨by decide, by decide, by decide⟩

theorem mComment_start (c : Char) (cs : List Char) (r : List Char × List Char)
    (h : mComment (c :: cs) = some r) : c = '<' := by
  by_cases hc : c = '<'
  · exact hc
  · have hpat : ("<!--").toList = '<' :: '!' :: '-' :: '-' :: [] := rfl
    simp [mComment, hpat, stripPre, hc] at h

theorem mHtml_start (c : Char) (cs : List Char) (r : List Char × List Char)
    (h : mHtml (c :: cs) = some r) : c = '<' := by
  by_cases hc : c = '<'
  · exact hc
  · simp [mHtml, hc] at h

theorem mExt_start (c : Char) (cs : List Char) (r : List Char × List Char)
    (h : mExt (c :: cs) = some r) : c = '[' := by
  by_cases hc : c = '['
  · exact hc
  · have hpat : ("[http").toList = '[' :: 'h' :: 't' :: 't' :: 'p' :: [] := rfl
    simp [mExt, hpat, stripPre, hc] at h

theorem mLink_start (valid : Option (List (List Char))) (c : Char)
    (cs : List Char) (r : List Char × List Char)
    (h : mLink valid (c :: cs) = some r) : c = '[' := by
  by_cases hc : c = '['
  · exact hc
  · have hpat : ("[[").toList = '[' :: '[' :: [] := rfl
    simp [mLink, mLinkRaw, hpat, stripPre, hc] at h

/-- No `{{` or `{|` opener pair. -/
def noOpenB : List Char → Bool
  | a :: b :: t => !(a = lb && (b = lb || b = '|')) && noOpenB (b :: t)
  | _ => true

theorem scan_id (u : List Char) (h : noOpenB u = true) : scan u [] = u := by
  induction u with
  | nil => rfl
  | cons c cs ih =>
    match cs with
    | [] => simp [scan, scanOne]
    | c2 :: cs2 =>
      have hp : ¬(c = lb ∧ (c2 = lb ∨ c2 = '|')) ∧ noOpenB (c2 :: cs2) = true := by
        simp [noOpenB] at h
        exact ⟨by tauto, h.2⟩
      have h1 : ¬(c = lb ∧ c2 = lb) := fun hx => hp.1 ⟨hx.1, Or.inl hx.2⟩
      have h2 : ¬(c = lb ∧ c2 = '|') := fun hx => hp.1 ⟨hx.1, Or.inr hx.2⟩
      simp only [scan]
      rw [if_neg (by simpa using h1), if_neg (by simpa using h2)]
      rw [ih hp.2]

theorem removeFileLinksF_id :
    ∀ (n : Nat) (u : List Char), u.length ≤ n → noLL u = true →
      removeFileLinksF n u = u := by
  intro n
  induction n with
  | zero =>
    intro u hlen _
    match u with
    | [] => rfl
    | c :: cs => simp at hlen
  | succ n ih =>
    intro u hlen h
    match u with
    | [] => rfl
    | c :: cs =>
      by_cases hc : c = '['
      · subst hc
        match cs with
        | [] =>
          have hnil : ∀ m, removeFileLinksF m ([] : List Char) = [] := by
            intro m
            cases m <;> rfl
          simp [removeFileLinksF, hnil]
        | c2 :: cs2 =>
          have hh : ¬(c2 = '[') ∧ noLL (c2 :: cs2) = true := by
            have h0 := h
            simp [noLL] at h0
            exact ⟨by tauto, h0.2⟩
          simp only [removeFileLinksF, if_true]
          rw [if_neg hh.1, ih (c2 :: cs2) (by simp at hlen ⊢; omega) hh.2]
      · simp only [removeFileLinksF]
        rw [if_neg hc]
        have htail : noLL cs = true := by
          match cs with
          | [] => rfl
          | d :: t =>
            have h0 := h
            simp [noLL] at h0
            exact h0.2
        rw [ih cs (by simp at hlen ⊢; omega) htail]

theorem remTriple_id :
    ∀ (n : Nat) (u : List Char), u.length ≤ n → noPair apos u = true →
      remTriple u = u := by
  intro n
  induction n with
  | zero =>
    intro u hlen _
    match u with
    | [] => rfl
    | c :: cs => simp at hlen
  | succ n ih =>
    intro u hlen h
    match u with
    | [] => rfl
    | [a] => rfl
    | [a, b] => rfl
    | a :: b :: c :: cs =>
      have hpair : ¬(a = apos ∧ b = apos) := noPair_split apos [] a b (c :: cs) h
      have htail : noPair apos (b :: c :: cs) = true := by
        have h0 := h
        simp [noPair] at h0 ⊢
        tauto
      simp only [remTriple]
      rw [if_neg (by simpa using fun h1 h2 _ => hpair ⟨h1, h2⟩)]
      rw [ih (b :: c :: cs) (by simp at hlen ⊢; omega) htail]

theorem remDouble_id :
    ∀ (n : Nat) (u : List Char), u.length ≤ n → noPair apos u = true →
      remDouble u = u := by
  intro n
  induction n with
  | zero =>
    intro u hlen _
    match u with
    | [] => rfl
    | c :: cs => simp at hlen
  | succ n ih =>
    intro u hlen h
    match u with
    | [] => rfl
    | [a] => rfl
    | a :: b :: cs =>
      have hpair : ¬(a = apos ∧ b = apos) := noPair_split apos [] a b cs h
      have htail : noPair apos (b :: cs) = true := by
        have h0 := h
        simp [noPair] at h0
        exact h0.2
      simp only [remDouble]
      rw [if_neg (by simpa using fun h1 h2 => hpair ⟨h1, h2⟩)]
      rw [ih (b :: cs) (by simp at hlen ⊢; omega) htail]

theorem dw_mem (p : Char → Bool) (l : List Char) (x : Char)
    (h : x ∈ dw p l) : x ∈ l := by
  induction l with
  | nil => simp [dw] at h
  | cons c cs ih =>
    by_cases hc : p c
    · simp [dw, hc] at h
      simp [ih h]
    · simpa [dw, hc] using h

theorem bulletF_id :
    ∀ (n : Nat) (b : Bool) (u : List Char), u.length ≤ n →
      (∀ c ∈ u, isBul c = false) → bulletF n b u = u := by
  intro n
  induction n with
  | zero =>
    intro b u hlen _
    match u with
    | [] => rfl
    | c :: cs => simp at hlen
  | succ n ih =>
    intro b u hlen h
    match u with
    | [] => rfl
    | c :: cs =>
      have hmb : mBullet (c :: cs) = none := by
        have hbs : tw isBul (dw wsp (c :: cs)) = [] := by
          cases hdd : dw wsp (c :: cs) with
          | nil => rfl
          | cons d t =>
            refine tw_cons_neg isBul d t ?_
            refine h d (dw_mem wsp (c :: cs) d ?_)
            rw [hdd]
            simp
        simp [mBullet, hbs]
      have htail : ∀ d ∈ cs, isBul d = false := fun d hd => h d (by simp [hd])
      cases b <;>
        simp [bulletF, hmb, ih (c = '\n') cs (by simp at hlen; omega) htail]

theorem spaceStep_id :
    ∀ (n : Nat) (u : List Char), u.length ≤ n → '\t' ∉ u →
      noPair ' ' u = true → scanRepl mSpace n u = u := by
  intro n
  induction n with
  | zero =>
    intro u hlen _ _
    match u with
    | [] => rfl
    | c :: cs => simp at hlen
  | succ n ih =>
    intro u hlen ht h
    match u with
    | [] => rfl
    | c :: cs =>
      have hct : ¬(c = '\t') := fun he => ht (by simp [he])
      have httail : '\t' ∉ cs := fun hm => ht (by simp [hm])
      have hntail : noPair ' ' cs = true := by
        match cs with
        | [] => rfl
        | d :: t =>
          have h0 := h
          simp [noPair] at h0
          exact h0.2
      by_cases hc : c = ' '
      · subst hc
        have hcs : tw (fun c => c = ' ' || c = '\t') cs = [] ∧
            dw (fun c => c = ' ' || c = '\t') cs = cs := by
          match cs with
          | [] => exact ⟨rfl, rfl⟩
          | d :: t =>
            have hd1 : ¬(d = ' ') := by
              have h0 := h
              simp [noPair] at h0
              tauto
            have hd2 : ¬(d = '\t') := fun he => httail (by simp [he])
            constructor
            · simp [tw, hd1, hd2]
            · simp [dw, hd1, hd2]
        have hms : mSpace (' ' :: cs) = some ([' '], cs) := by
          simp [mSpace, tw, dw, hcs.1, hcs.2]
        simp only [scanRepl, hms]
        rw [ih cs (by simp at hlen; omega) httail hntail]
        rfl
      · have hms : mSpace (c :: cs) = none := by
          simp [mSpace, tw, hc, hct]
        simp only [scanRepl, hms]
        rw [ih cs (by simp at hlen; omega) httail hntail]

/-- No three consecutive newlines. -/
def noTriNl : List Char → Bool
  | a :: b :: c :: t =>
    !(a = '\n' && b = '\n' && c = '\n') && noTriNl (b :: c :: t)
  | _ => true

theorem nlStep_id :
    ∀ (n : Nat) (u : List Char), u.length ≤ n → noTriNl u = true →
      scanRepl mNl3 n u = u := by
  intro n
  induction n with
  | zero =>
    intro u hlen _
    match u with
    | [] => rfl
    | c :: cs => simp at hlen
  | succ n ih =>
    intro u hlen h
    match u with
    | [] => rfl
    | c :: cs =>
      have htail : noTriNl cs = true := by
        match cs with
        | [] => rfl
        | [d] => rfl
        | d :: e :: t =>
          have h0 := h
          simp [noTriNl] at h0 ⊢
          tauto
      have hrun : (tw (fun c => c = '\n') (c :: cs)).length < 3 := by
        by_cases hc : c = '\n'
        · subst hc
          match cs with
          | [] => simp [tw]
          | d :: t =>
            by_cases hd : d = '\n'
            · subst hd
              match t with
              | [] => simp [tw]
              | e :: t2 =>
                have he : ¬(e = '\n') := by
                  have h0 := h
                  simp [noTriNl] at h0
                  tauto
                simp [tw, he]
            · simp [tw, hd]
        · simp [tw, hc]
      have hmn : mNl3 (c :: cs) = none := by
        simp only [mNl3]
        rw [if_pos hrun]
      simp only [scanRepl, hmn]
      rw [ih cs (by simp at hlen; omega) htail]

/-- First character (if any) is not whitespace. -/
def headNotWs : List Char → Bool
  | [] => true
  | c :: _ => !(wsp c)

theorem dw_id_of_head (u : List Char) (h : headNotWs u = true) :
    dw wsp u = u := by
  match u with
  | [] => rfl
  | c :: cs => exact dw_cons_neg wsp c cs (by simpa [headNotWs] using h)

theorem trimBoth_id (u : List Char) (h1 : headNotWs u = true)
    (h2 : headNotWs u.reverse = true) : trimBoth u = u := by
  unfold trimBoth
  rw [dw_id_of_head u h1, dw_id_of_head u.reverse h2, List.reverse_reverse]

theorem refStep_id (u : List Char) (h : '<' ∉ u) : refStep u = u :=
  scanRepl_id_start mRef (fun c => c = '<') u u.length
    (fun c cs r hr => by simp [mRef_start c cs r hr])
    (fun c hc => by simp; intro he; exact h (he ▸ hc)) (Nat.le_refl _)

theorem refSelfStep_id (u : List Char) (h : '<' ∉ u) : refSelfStep u = u :=
  scanRepl_id_start mRefSelf (fun c => c = '<') u u.length
    (fun c cs r hr => by simp [mRefSelf_start c cs r hr])
    (fun c hc => by simp; intro he; exact h (he ▸ hc)) (Nat.le_refl _)

theorem commentStep_id (u : List Char) (h : '<' ∉ u) : commentStep u = u :=
  scanRepl_id_start mComment (fun c => c = '<') u u.length
    (fun c cs r hr => by simp [mComment_start c cs r hr])
    (fun c hc => by simp; intro he; exact h (he ▸ hc)) (Nat.le_refl _)

theorem htmlStep_id (u : List Char) (h : '<' ∉ u) : htmlStep u = u :=
  scanRepl_id_start mHtml (fun c => c = '<') u u.length
    (fun c cs r hr => by simp [mHtml_start c cs r hr])
    (fun c hc => by simp; intro he; exact h (he ▸ hc)) (Nat.le_refl _)

theorem extStep_id (u : List Char) (h : '[' ∉ u) : extStep u = u :=
  scanRepl_id_start mExt (fun c => c = '[') u u.length
    (fun c cs r hr => by simp [mExt_start c cs r hr])
    (fun c hc => by simp; intro he; exact h (he ▸ hc)) (Nat.le_refl _)

theorem pipeStep_id (valid : Option (List (List Char))) (u : List Char)
    (h : '[' ∉ u) : pipeStep valid u = u :=
  scanRepl_id_start (mPipe valid) (fun c => c = '[') u u.length
    (fun c cs r hr => by simp [mPipe_start valid c cs r hr])
    (fun c hc => by simp; intro he; exact h (he ▸ hc)) (Nat.le_refl _)

theorem linkStep_id (valid : Option (List (List Char))) (u : List Char)
    (h : '[' ∉ u) : linkStep valid u = u :=
  scanRepl_id_start (mLink valid) (fun c => c = '[') u u.length
    (fun c cs r hr => by simp [mLink_start valid c cs r hr])
    (fun c hc => by simp; intro he; exact h (he ▸ hc)) (Nat.le_refl _)

/-- A text none of the pipeline's stages can change: no `{{`/`{|` pair,
no `[[` pair, no `<`, `[`, tab or bullet character, no `==` or `''`
pair, no double space, no triple newline, no leading or trailing
whitespace. -/
def inert (u : List Char) : Bool :=
  noOpenB u && noLL u &&
  u.all (fun c => !(c = '<') && !(c = '[') && !(c = '\t') && !(isBul c)) &&
  noPair '=' u && noPair apos u && noPair ' ' u && noTriNl u &&
  headNotWs u && headNotWs u.reverse

/-- C4, amended: `clean_wiki_markup` is a fixed point on inert text; on
cleaned output containing markup triggers (notably the `<a>` anchors the
first pass emits) a second run changes more than whitespace. -/
theorem clean_second_run_amended (u : List Char) (h : inert u = true) :
    cleanWikiMarkup u = u := by
  simp only [inert, Bool.and_eq_true, List.all_eq_true] at h
  obtain ⟨⟨⟨⟨⟨⟨⟨⟨hopen, hll⟩, hall⟩, heq⟩, hap⟩, hsp⟩, htri⟩, hhead⟩, hlast⟩ := h
  have hlt : '<' ∉ u := fun hm => by
    have := hall '<' hm
    simp at this
  have hlbk : '[' ∉ u := fun hm => by
    have := hall '[' hm
    simp at this
  have htab : '\t' ∉ u := fun hm => by
    have := hall '\t' hm
    simp at this
  have hbul : ∀ c ∈ u, isBul c = false := fun c hm => by
    have := hall c hm
    simp at this
    exact this.2
  simp only [cleanWikiMarkup, cleanWithFilter]
  rw [scan_id u hopen, refStep_id u hlt, refSelfStep_id u hlt,
    commentStep_id u hlt]
  rw [show removeFileLinks u = u from
    removeFileLinksF_id u.length u (Nat.le_refl _) hll]
  rw [extStep_id u hlbk,
    remTriple_id u.length u (Nat.le_refl _) hap,
    remDouble_id u.length u (Nat.le_refl _) hap,
    headerStep_id u heq]
  rw [show bulletStep u = u from
    bulletF_id u.length true u (Nat.le_refl _) hbul]
  rw [htmlStep_id u hlt, pipeStep_id none u hlbk, linkStep_id none u hlbk]
  rw [show spaceStep u = u from
    spaceStep_id u.length u (Nat.le_refl _) htab hsp]
  rw [show nlStep u = u from
    nlStep_id u.length u (Nat.le_refl _) htri]
  exact trimBoth_id u hhead hlast

/-- Witness for C4 amended: `abc` is inert and a second run (indeed any
run) of the cleaner leaves it unchanged. -/
theorem clean_second_run_amended_witness :
    inert (("abc").toList) = true ∧
    cleanWikiMarkup (("abc").toList) = ("abc").toList := by
  exact ⟨by decide, clean_second_run_amended (("abc").toList) (by decide)⟩

end Wiki
